import Mathlib

/-!
Verification development for the AMQ filter library (bloom_filter.py,
cuckoo_filter.py, vacuum_filter.py).

Modelling conventions:
  - Items are natural numbers; the SHA-256 derived hash functions are
    abstract parameters (`H : Nat → Nat` for Cuckoo/Vacuum, and
    `H2 : Nat → Nat → Nat` for the seeded Bloom hash of `(seed, item)`),
    since the source only uses them as well-distributed functions.
  - Python exceptions (IndexError on an out-of-range bucket index,
    ZeroDivisionError on `% 0`, ValueError of `random.randint(0, -1)`) are
    modelled by `Option`: `none` is a raised exception.
  - A Python method with no `return` statement returns `None`; insert
    operations therefore return the new state paired with `Option Bool`
    (`none` is Python `None`, `some b` is a boolean result).
  - The random choices (`random.choice`, `random.randint`,
    `np.random.choice`, `np.random.randint`) are inputs: a `coin` for the
    binary bucket choice and a list of naturals for slot draws, reduced
    modulo the size of the range the source draws from.
-/

/-- Bucket access used throughout the development: bucket `i` of a table,
defaulting to the empty bucket when `i` is out of range. -/
def bucketAt (t : List (List Nat)) (i : Nat) : List Nat := (t[i]?).getD []

theorem bucketAt_set_self (t : List (List Nat)) (i : Nat) (b : List Nat)
    (h : i < t.length) : bucketAt (t.set i b) i = b := by
  simp [bucketAt, List.getElem?_set_self, h]

theorem bucketAt_set_ne (t : List (List Nat)) (i j : Nat) (b : List Nat)
    (h : i ≠ j) : bucketAt (t.set i b) j = bucketAt t j := by
  simp [bucketAt, List.getElem?_set_ne h]

theorem bucketAt_of_getElem? {t : List (List Nat)} {i : Nat} {b : List Nat}
    (h : t[i]? = some b) : bucketAt t i = b := by
  simp [bucketAt, h]

/-! ### BloomFilter (src/bloom_filter.py) -/

structure BloomFilter where
  size : Nat
  num_hashes : Nat
  bit_array : List Bool
deriving DecidableEq, Repr

/-- Constructor `BloomFilter.__init__`: stores the parameters and allocates a
zeroed bit array of length `size`.  The source performs no validation. -/
def mkBloomFilter (size num_hashes : Nat) : BloomFilter :=
  ⟨size, num_hashes, List.replicate size false⟩

/-- Helper for `BloomFilter.insert`: the loop `for i in range(num_hashes)`
setting bit `_hash(item, i) = H2(i, item) % size`, written with the current
seed `i` and the number `r` of remaining iterations.  `_hash` raises
ZeroDivisionError when `size = 0`. -/
def bloomSetBits (H2 : Nat → Nat → Nat) (size item : Nat) :
    Nat → Nat → List Bool → Option (List Bool)
  | _, 0, arr => some arr
  | i, r + 1, arr =>
    if size = 0 then none
    else bloomSetBits H2 size item (i + 1) r (arr.set (H2 i item % size) true)

/-- `BloomFilter.insert`: sets the `num_hashes` probe bits.  The Python method
has no return statement, so its value is `None` (the inner `none`). -/
def bloomInsert (H2 : Nat → Nat → Nat) (b : BloomFilter) (item : Nat) :
    Option (BloomFilter × Option Bool) :=
  (bloomSetBits H2 b.size item 0 b.num_hashes b.bit_array).map
    (fun arr => (⟨b.size, b.num_hashes, arr⟩, none))

/-- Helper for `BloomFilter.__contains__`: `all(bit_array[_hash(item, i)]
for i in range(num_hashes))`, short-circuiting at the first clear bit, as the
Python generator does. -/
def bloomProbes (H2 : Nat → Nat → Nat) (size item : Nat) :
    Nat → Nat → List Bool → Option Bool
  | _, 0, _ => some true
  | i, r + 1, arr =>
    if size = 0 then none
    else if arr.getD (H2 i item % size) false then
      bloomProbes H2 size item (i + 1) r arr
    else some false

/-- `BloomFilter.__contains__`. -/
def bloomContains (H2 : Nat → Nat → Nat) (b : BloomFilter) (item : Nat) :
    Option Bool :=
  bloomProbes H2 b.size item 0 b.num_hashes b.bit_array

/-- A sequence of Bloom insertions (the only mutating operation). -/
def bloomRun (H2 : Nat → Nat → Nat) : BloomFilter → List Nat → Option BloomFilter
  | b, [] => some b
  | b, x :: xs =>
    match bloomInsert H2 b x with
    | none => none
    | some (b2, _) => bloomRun H2 b2 xs

/-! ### CuckooFilter (src/cuckoo_filter.py) -/

structure CuckooFilter where
  size : Nat
  bucket_size : Nat
  max_kicks : Nat
  table : List (List Nat)
deriving DecidableEq, Repr

/-- Constructor `CuckooFilter.__init__`: a table of `size` empty buckets.
The source performs no validation. -/
def mkCuckooFilter (size bucket_size max_kicks : Nat) : CuckooFilter :=
  ⟨size, bucket_size, max_kicks, List.replicate size []⟩

/-- `CuckooFilter._fingerprint`: last 8 bits of the hash. -/
def cuckooFingerprint (H : Nat → Nat) (item : Nat) : Nat :=
  H item &&& 255

/-- `CuckooFilter._get_bucket_indexes`: `h1 = H(item) % size` and
`h2 = h1 XOR (H(fingerprint) % size)`.  The `% size` raises
ZeroDivisionError when `size = 0`. -/
def cuckooBucketIndexes (H : Nat → Nat) (size item : Nat) :
    Option (Nat × Nat) :=
  if size = 0 then none
  else
    let h1 := H item % size
    let f := cuckooFingerprint H item
    some (h1, h1 ^^^ (H f % size))

/-- The relocation loop of `CuckooFilter.insert`: up to `fuel = max_kicks`
iterations; in each one a random occupant of bucket `i` is swapped with the
in-hand fingerprint `f`, and the evicted occupant moves to its alternate
bucket if that has room.  `js` supplies the random slot draws
(`random.randint(0, len-1)`, modelled modulo the bucket length); an empty
current bucket would make `randint(0, -1)` raise, and an out-of-range
alternate index would make the table access raise. -/
def cuckooKickLoop (H : Nat → Nat) (size bucket_size : Nat) :
    Nat → List Nat → Nat → Nat → List (List Nat) →
    Option (List (List Nat) × Bool)
  | 0, _, _, _, table => some (table, false)
  | fuel + 1, js, f, i, table =>
    match table[i]? with
    | none => none
    | some bkt =>
      if bkt.length = 0 then none
      else
        let j := js.headD 0 % bkt.length
        let fOut := bkt.getD j 0
        let t1 := table.set i (bkt.set j f)
        let i2 := i ^^^ (H fOut % size)
        match t1[i2]? with
        | none => none
        | some b2 =>
          if b2.length < bucket_size then some (t1.set i2 (b2 ++ [fOut]), true)
          else cuckooKickLoop H size bucket_size fuel js.tail fOut i2 t1

/-- `CuckooFilter.insert`: try the two candidate buckets, then relocate.
`coin` is `random.choice([i1, i2])` (true picks `i1`). -/
def cuckooInsert (H : Nat → Nat) (c : CuckooFilter) (item : Nat)
    (coin : Bool) (js : List Nat) : Option (CuckooFilter × Bool) :=
  match cuckooBucketIndexes H c.size item with
  | none => none
  | some (i1, i2) =>
    let f := cuckooFingerprint H item
    match c.table[i1]? with
    | none => none
    | some b1 =>
      if b1.length < c.bucket_size then
        some ({ c with table := c.table.set i1 (b1 ++ [f]) }, true)
      else
        match c.table[i2]? with
        | none => none
        | some b2 =>
          if b2.length < c.bucket_size then
            some ({ c with table := c.table.set i2 (b2 ++ [f]) }, true)
          else
            let i := if coin then i1 else i2
            (cuckooKickLoop H c.size c.bucket_size c.max_kicks js f i
              c.table).map (fun p => ({ c with table := p.1 }, p.2))

/-- `CuckooFilter.__contains__`: `f in table[i1] or f in table[i2]`, with
Python short-circuiting (the second bucket is only read when the first
misses). -/
def cuckooContains (H : Nat → Nat) (c : CuckooFilter) (item : Nat) :
    Option Bool :=
  match cuckooBucketIndexes H c.size item with
  | none => none
  | some (i1, i2) =>
    let f := cuckooFingerprint H item
    match c.table[i1]? with
    | none => none
    | some b1 =>
      if f ∈ b1 then some true
      else
        match c.table[i2]? with
        | none => none
        | some b2 => some (decide (f ∈ b2))

/-- `CuckooFilter.delete`: remove one copy of the fingerprint from the first
candidate bucket holding it (Python `list.remove` drops the first
occurrence); false when absent. -/
def cuckooDelete (H : Nat → Nat) (c : CuckooFilter) (item : Nat) :
    Option (CuckooFilter × Bool) :=
  match cuckooBucketIndexes H c.size item with
  | none => none
  | some (i1, i2) =>
    let f := cuckooFingerprint H item
    match c.table[i1]? with
    | none => none
    | some b1 =>
      if f ∈ b1 then some ({ c with table := c.table.set i1 (b1.erase f) }, true)
      else
        match c.table[i2]? with
        | none => none
        | some b2 =>
          if f ∈ b2 then
            some ({ c with table := c.table.set i2 (b2.erase f) }, true)
          else some (c, false)

/-! ### VacuumFilter (src/vacuum_filter.py) -/

structure VacuumFilter where
  slots_per_bucket : Nat
  n : Nat
  lf : ℚ
  alternate_ranges : List Nat
  m : Nat
  table : List (List Nat)
deriving DecidableEq, Repr

/-- `VacuumFilter._range_selection`: double `L` starting from 1 until the
load-factor test passes.  The test `_load_factor_test(n, load_factor, ratio,
L)` of the source compares the floating-point balls-into-bins estimate
`n/c + 1.5*sqrt(2*(n/c)*log(c))` with `0.97*4*L`; it reads `n`, `load_factor`
and `L` but never its `ratio` argument.  Because the estimate is
floating-point it is abstracted here into a boolean predicate `test` of `L`
(with `n` and the load factor fixed); the unbounded `while` loop is given
explicit fuel. -/
def rangeSelection (test : Nat → Bool) : Nat → Nat → Nat
  | 0, L => L
  | fuel + 1, L => if test L then L else rangeSelection test fuel (2 * L)

/-- `VacuumFilter._init_alternate_ranges`: four ranges computed by
`_range_selection(n, load_factor, 1 - i/4)`; since `_load_factor_test`
ignores `ratio`, the four calls coincide.  Index 3 is then doubled. -/
def initAlternateRanges (test : Nat → Bool) (fuel : Nat) : List Nat :=
  let ars := (List.range 4).map (fun _i => rangeSelection test fuel 1)
  ars.set 3 (2 * ars.getD 3 0)

/-- `VacuumFilter._calculate_buckets`: `ceil(n / (4*load_factor*L)) * L`
with `L = alternate_ranges[0]` (the code comment reads "Select largest alt
range").  The outer `int(np.ceil(...))` of `__init__` is the identity on
this integer value. -/
def calculateBuckets (n : Nat) (lf : ℚ) (L : Nat) : Nat :=
  (((n : ℚ) / (4 * lf * L)).ceil).toNat * L

/-- Constructor `VacuumFilter.__init__` with `slots_per_bucket = 4`.
The source performs no validation of `load_factor`. -/
def mkVacuumFilter (test : Nat → Bool) (fuel : Nat) (n : Nat) (lf : ℚ) :
    VacuumFilter :=
  let ars := initAlternateRanges test fuel
  let m := calculateBuckets n lf (ars.getD 0 0)
  ⟨4, n, lf, ars, m, List.replicate m []⟩

/-- `VacuumFilter._map`: `((x * m) >> 32) % m`. -/
def vacuumMap (x m : Nat) : Nat := ((x * m) >>> 32) % m

/-- `VacuumFilter._alternate`: XOR with `H(fingerprint) % l` where `l` is the
alternate range of the fingerprint class `fingerprint % 4`, reduced `% m`.
The source hashes `str(fingerprint)` with the same SHA-256 truncation used by
`_hash`, hence the same `H`. -/
def vacuumAlternate (H : Nat → Nat) (ranges : List Nat) (m : Nat)
    (bucket fingerprint : Nat) : Nat :=
  let l := ranges.getD (fingerprint % 4) 0
  let delta := H fingerprint % l
  (bucket ^^^ delta) % m

/-- The inner scan of `VacuumFilter.insert`: the first occupant of the
current bucket whose own alternate bucket has a free slot. -/
def vacuumFindAlt (H : Nat → Nat) (ranges : List Nat) (m slots : Nat)
    (table : List (List Nat)) (cb : Nat) : List Nat → Option Nat
  | [] => none
  | g :: gs =>
    if (bucketAt table (vacuumAlternate H ranges m cb g)).length < slots then
      some g
    else vacuumFindAlt H ranges m slots table cb gs

/-- The eviction loop of `VacuumFilter.insert` (`max_evicts = 500`): scan the
current bucket for a relocatable occupant; failing that, overwrite the slot
drawn by `np.random.randint(0, slots_per_bucket)` (supplied by `picks`,
modulo `slots`) and continue from the evicted fingerprint's alternate bucket.
Reading a slot beyond the current occupancy of the bucket would raise
IndexError (`none`). -/
def vacuumEvictLoop (H : Nat → Nat) (ranges : List Nat) (m slots : Nat) :
    Nat → List Nat → Nat → Nat → List (List Nat) →
    Option (List (List Nat) × Bool)
  | 0, _, _, _, table => some (table, false)
  | fuel + 1, picks, cf, cb, table =>
    match vacuumFindAlt H ranges m slots table cb (bucketAt table cb) with
    | some g =>
      let ab := vacuumAlternate H ranges m cb g
      let t1 := table.set ab (bucketAt table ab ++ [g])
      let t2 := t1.set cb ((bucketAt t1 cb).erase g ++ [cf])
      some (t2, true)
    | none =>
      let bkt := bucketAt table cb
      let ei := picks.headD 0 % slots
      match bkt[ei]? with
      | none => none
      | some evicted =>
        let t1 := table.set cb (bkt.set ei cf)
        vacuumEvictLoop H ranges m slots fuel picks.tail evicted
          (vacuumAlternate H ranges m cb evicted) t1

/-- `VacuumFilter.insert`: fingerprint `f = H(item)` (the source computes
`_fingerprint` with the same SHA-256 truncation as `_hash`), primary bucket
`b1 = _map(H(item), m)`, alternate `b2`; direct placement, then the eviction
loop from the `coin`-chosen bucket.  `% m` with `m = 0` raises. -/
def vacuumInsert (H : Nat → Nat) (v : VacuumFilter) (item : Nat)
    (coin : Bool) (picks : List Nat) : Option (VacuumFilter × Bool) :=
  if v.m = 0 then none
  else
    let f := H item
    let b1 := vacuumMap (H item) v.m
    let b2 := vacuumAlternate H v.alternate_ranges v.m b1 f
    if (bucketAt v.table b1).length < v.slots_per_bucket then
      some ({ v with table := v.table.set b1 (bucketAt v.table b1 ++ [f]) }, true)
    else if (bucketAt v.table b2).length < v.slots_per_bucket then
      some ({ v with table := v.table.set b2 (bucketAt v.table b2 ++ [f]) }, true)
    else
      let cb := if coin then b1 else b2
      (vacuumEvictLoop H v.alternate_ranges v.m v.slots_per_bucket 500 picks
        f cb v.table).map (fun p => ({ v with table := p.1 }, p.2))

/-- `VacuumFilter.__contains__`. -/
def vacuumContains (H : Nat → Nat) (v : VacuumFilter) (item : Nat) :
    Option Bool :=
  if v.m = 0 then none
  else
    let f := H item
    let b1 := vacuumMap (H item) v.m
    let b2 := vacuumAlternate H v.alternate_ranges v.m b1 f
    some (decide (f ∈ bucketAt v.table b1) || decide (f ∈ bucketAt v.table b2))

/-- `VacuumFilter.delete`: remove the first copy of the fingerprint from the
first candidate bucket holding it; false when absent. -/
def vacuumDelete (H : Nat → Nat) (v : VacuumFilter) (item : Nat) :
    Option (VacuumFilter × Bool) :=
  if v.m = 0 then none
  else
    let f := H item
    let b1 := vacuumMap (H item) v.m
    let b2 := vacuumAlternate H v.alternate_ranges v.m b1 f
    if f ∈ bucketAt v.table b1 then
      some ({ v with table := v.table.set b1 ((bucketAt v.table b1).erase f) }, true)
    else if f ∈ bucketAt v.table b2 then
      some ({ v with table := v.table.set b2 ((bucketAt v.table b2).erase f) }, true)
    else some (v, false)

/-! ### Operation sequences -/

/-- One call against a Cuckoo filter, with its random draws. -/
inductive CuckooOp where
  | ins (item : Nat) (coin : Bool) (js : List Nat)
  | del (item : Nat)

/-- Execute one Cuckoo operation, keeping the new state. -/
def cuckooStep (H : Nat → Nat) (c : CuckooFilter) : CuckooOp → Option CuckooFilter
  | .ins item coin js => (cuckooInsert H c item coin js).map Prod.fst
  | .del item => (cuckooDelete H c item).map Prod.fst

/-- Execute a sequence of Cuckoo operations. -/
def cuckooRun (H : Nat → Nat) : CuckooFilter → List CuckooOp → Option CuckooFilter
  | c, [] => some c
  | c, op :: ops =>
    match cuckooStep H c op with
    | none => none
    | some c2 => cuckooRun H c2 ops

/-- Execute a sequence of Cuckoo operations in which every insert call
returns true and no delete call targets an item whose fingerprint is
`avoidFp` (any other outcome aborts with `none`). -/
def cuckooRunStrict (H : Nat → Nat) (avoidFp : Nat) :
    CuckooFilter → List CuckooOp → Option CuckooFilter
  | c, [] => some c
  | c, .ins item coin js :: ops =>
    match cuckooInsert H c item coin js with
    | some (c2, true) => cuckooRunStrict H avoidFp c2 ops
    | _ => none
  | c, .del item :: ops =>
    if cuckooFingerprint H item = avoidFp then none
    else
      match cuckooDelete H c item with
      | some (c2, _) => cuckooRunStrict H avoidFp c2 ops
      | none => none

/-- One call against a Vacuum filter, with its random draws. -/
inductive VacuumOp where
  | ins (item : Nat) (coin : Bool) (picks : List Nat)
  | del (item : Nat)

/-- Execute one Vacuum operation, keeping the new state. -/
def vacuumStep (H : Nat → Nat) (v : VacuumFilter) : VacuumOp → Option VacuumFilter
  | .ins item coin picks => (vacuumInsert H v item coin picks).map Prod.fst
  | .del item => (vacuumDelete H v item).map Prod.fst

/-- Execute a sequence of Vacuum operations. -/
def vacuumRun (H : Nat → Nat) : VacuumFilter → List VacuumOp → Option VacuumFilter
  | v, [] => some v
  | v, op :: ops =>
    match vacuumStep H v op with
    | none => none
    | some v2 => vacuumRun H v2 ops

/-- Execute a sequence of Vacuum operations in which every insert call
returns true and no delete call targets an item whose fingerprint is
`avoidFp`. -/
def vacuumRunStrict (H : Nat → Nat) (avoidFp : Nat) :
    VacuumFilter → List VacuumOp → Option VacuumFilter
  | v, [] => some v
  | v, .ins item coin picks :: ops =>
    match vacuumInsert H v item coin picks with
    | some (v2, true) => vacuumRunStrict H avoidFp v2 ops
    | _ => none
  | v, .del item :: ops =>
    if H item = avoidFp then none
    else
      match vacuumDelete H v item with
      | some (v2, _) => vacuumRunStrict H avoidFp v2 ops
      | none => none

/-! ### General list and arithmetic support lemmas -/

theorem list_set_oob {α : Type _} (l : List α) (i : Nat) (a : α)
    (h : l.length ≤ i) : l.set i a = l := by
  induction l generalizing i with
  | nil => rfl
  | cons x xs ih =>
    cases i with
    | zero => simp at h
    | succ j =>
      simp only [List.set_cons_succ]
      rw [ih j (by simpa using Nat.le_of_succ_le_succ h)]

theorem list_getD_eq_getElem {α : Type _} (l : List α) (i : Nat) (d : α)
    (h : i < l.length) : l.getD i d = l[i] := by
  simp [List.getD, List.get?_eq_getElem?, List.getElem?_eq_getElem h]

theorem list_mem_set_self {l : List Nat} {j : Nat} (f : Nat)
    (h : j < l.length) : f ∈ l.set j f := by
  have hlen : j < (l.set j f).length := by simpa using h
  have heq : (l.set j f)[j] = f := List.getElem_set_self hlen
  have hmem := List.getElem_mem hlen
  rwa [heq] at hmem

theorem list_mem_set_of_ne_getD {l : List Nat} {a f : Nat} {j : Nat}
    (ha : a ∈ l) (hne : l.getD j 0 ≠ a) : a ∈ l.set j f := by
  obtain ⟨k, hk, hEq⟩ := List.getElem_of_mem ha
  have hkj : j ≠ k := by
    rintro rfl
    exact hne (by rw [list_getD_eq_getElem l j 0 hk, hEq])
  have hk2 : k < (l.set j f).length := by simpa using hk
  have heq2 : (l.set j f)[k] = a := by
    rw [List.getElem_set_ne hkj]; exact hEq
  have hmem := List.getElem_mem hk2
  rwa [heq2] at hmem

theorem list_getD_of_not_mem_set {l : List Nat} {a f : Nat} {j : Nat}
    (ha : a ∈ l) (hnot : a ∉ l.set j f) : l.getD j 0 = a := by
  by_contra hne
  exact hnot (list_mem_set_of_ne_getD ha hne)

theorem bucketAt_oob (t : List (List Nat)) (i : Nat) (h : t.length ≤ i) :
    bucketAt t i = [] := by
  simp [bucketAt, List.getElem?_eq_none h]

theorem bucketAt_lt_of_ne_nil {t : List (List Nat)} {i : Nat}
    (h : bucketAt t i ≠ []) : i < t.length := by
  by_contra hc
  exact h (bucketAt_oob t i (by omega))

theorem bucketAt_getElem? {t : List (List Nat)} {i : Nat} (h : i < t.length) :
    t[i]? = some (bucketAt t i) := by
  simp [bucketAt, List.getElem?_eq_getElem h]

theorem bucketAt_mem {t : List (List Nat)} {i : Nat} (h : i < t.length) :
    bucketAt t i ∈ t := by
  have := bucketAt_getElem? h
  simp [List.getElem?_eq_getElem h] at this
  exact this ▸ List.getElem_mem _

theorem bucketAt_set_append_mem {t : List (List Nat)} {i : Nat} {a : Nat}
    {l : List Nat} (ha : a ∈ bucketAt t i) :
    a ∈ bucketAt (t.set i (bucketAt t i ++ l)) i := by
  rcases Nat.lt_or_ge i t.length with h | h
  · rw [bucketAt_set_self _ _ _ h]
    exact List.mem_append_left _ ha
  · rw [list_set_oob _ _ _ h]
    exact ha

/-- Every bucket of a table holds at most `cap` fingerprints. -/
def TableBounded (cap : Nat) (t : List (List Nat)) : Prop :=
  ∀ b ∈ t, b.length ≤ cap

instance (cap : Nat) (t : List (List Nat)) : Decidable (TableBounded cap t) :=
  List.decidableBAll _ t

theorem tableBounded_replicate (cap n : Nat) :
    TableBounded cap (List.replicate n []) := by
  intro b hb
  rw [List.eq_of_mem_replicate hb]
  simp

theorem tableBounded_set {cap : Nat} {t : List (List Nat)}
    (ht : TableBounded cap t) {b : List Nat} (hb : b.length ≤ cap) (i : Nat) :
    TableBounded cap (t.set i b) := by
  intro x hx
  rcases List.mem_or_eq_of_mem_set hx with h | rfl
  · exact ht x h
  · exact hb

theorem tableBounded_bucketAt {cap : Nat} {t : List (List Nat)}
    (ht : TableBounded cap t) (i : Nat) : (bucketAt t i).length ≤ cap := by
  rcases Nat.lt_or_ge i t.length with h | h
  · exact ht _ (bucketAt_mem h)
  · rw [bucketAt_oob t i h]; simp

theorem xor_div_two_pow_eq (b d e : Nat) (hd : d < 2 ^ e) :
    (b ^^^ d) / 2 ^ e = b / 2 ^ e := by
  have h1 : (b ^^^ d) >>> e = b >>> e := by
    apply Nat.eq_of_testBit_eq
    intro i
    rw [Nat.testBit_shiftRight, Nat.testBit_shiftRight, Nat.testBit_xor]
    have hdb : d.testBit (e + i) = false :=
      Nat.testBit_eq_false_of_lt
        (lt_of_lt_of_le hd (Nat.pow_le_pow_right (by norm_num) (Nat.le_add_right e i)))
    simp [hdb]
  simpa [Nat.shiftRight_eq_div_pow] using h1

theorem xor_lt_of_dvd {b d e M : Nat} (hb : b < M) (hd : d < 2 ^ e)
    (hdvd : 2 ^ e ∣ M) : b ^^^ d < M := by
  obtain ⟨t, rfl⟩ := hdvd
  have he : 0 < 2 ^ e := Nat.pos_pow_of_pos e (by norm_num)
  have hq : b / 2 ^ e < t := Nat.div_lt_of_lt_mul hb
  have hmod : (b ^^^ d) % 2 ^ e < 2 ^ e := Nat.mod_lt _ he
  have hdecomp : b ^^^ d = 2 ^ e * ((b ^^^ d) / 2 ^ e) + (b ^^^ d) % 2 ^ e :=
    (Nat.div_add_mod _ _).symm
  rw [hdecomp, xor_div_two_pow_eq b d e hd]
  calc 2 ^ e * (b / 2 ^ e) + (b ^^^ d) % 2 ^ e
      < 2 ^ e * (b / 2 ^ e) + 2 ^ e := by omega
    _ = 2 ^ e * (b / 2 ^ e + 1) := by ring
    _ ≤ 2 ^ e * t := Nat.mul_le_mul_left _ (by omega)

/-! ### VacuumFilter construction facts -/

theorem rangeSelection_pow (test : Nat → Bool) :
    ∀ (fuel L : Nat), (∃ e, L = 2 ^ e) → ∃ e, rangeSelection test fuel L = 2 ^ e := by
  intro fuel
  induction fuel with
  | zero => intro L h; exact h
  | succ k ih =>
    intro L h
    unfold rangeSelection
    by_cases ht : test L
    · simp [ht]; exact h
    · simp [ht]
      apply ih
      obtain ⟨e, rfl⟩ := h
      exact ⟨e + 1, by ring⟩

theorem initAlternateRanges_eq (test : Nat → Bool) (fuel : Nat) :
    initAlternateRanges test fuel =
      [rangeSelection test fuel 1, rangeSelection test fuel 1,
       rangeSelection test fuel 1, 2 * rangeSelection test fuel 1] := rfl

theorem mkVacuumFilter_ranges (test : Nat → Bool) (fuel n : Nat) (lf : ℚ) :
    (mkVacuumFilter test fuel n lf).alternate_ranges =
      [rangeSelection test fuel 1, rangeSelection test fuel 1,
       rangeSelection test fuel 1, 2 * rangeSelection test fuel 1] := rfl

theorem mkVacuumFilter_m (test : Nat → Bool) (fuel n : Nat) (lf : ℚ) :
    (mkVacuumFilter test fuel n lf).m =
      calculateBuckets n lf (rangeSelection test fuel 1) := rfl

theorem mkVacuumFilter_base_dvd_m (test : Nat → Bool) (fuel n : Nat) (lf : ℚ) :
    rangeSelection test fuel 1 ∣ (mkVacuumFilter test fuel n lf).m := by
  rw [mkVacuumFilter_m]
  exact dvd_mul_left _ _


theorem mkVacuumFilter_ranges_pow (test : Nat → Bool) (fuel n : Nat) (lf : ℚ)
    (i : Nat) (hi : i < 4) :
    ∃ e, (mkVacuumFilter test fuel n lf).alternate_ranges.getD i 0 = 2 ^ e := by
  obtain ⟨e, he⟩ := rangeSelection_pow test fuel 1 ⟨0, rfl⟩
  rw [mkVacuumFilter_ranges]
  interval_cases i
  · exact ⟨e, by simpa using he⟩
  · exact ⟨e, by simpa using he⟩
  · exact ⟨e, by simpa using he⟩
  · exact ⟨e + 1, by simp [he]; ring⟩

theorem alternate_involution_of_dvd (H : Nat → Nat) (ranges : List Nat)
    (m b f e : Nat) (hpow : ranges.getD (f % 4) 0 = 2 ^ e)
    (hdvd : ranges.getD (f % 4) 0 ∣ m) (hb : b < m) :
    vacuumAlternate H ranges m (vacuumAlternate H ranges m b f) f = b := by
  unfold vacuumAlternate
  have hl : 0 < ranges.getD (f % 4) 0 := by rw [hpow]; positivity
  have hdlt : H f % ranges.getD (f % 4) 0 < 2 ^ e := hpow ▸ Nat.mod_lt _ hl
  have h1 : b ^^^ (H f % ranges.getD (f % 4) 0) < m :=
    xor_lt_of_dvd hb hdlt (hpow ▸ hdvd)
  simp only []
  rw [Nat.mod_eq_of_lt h1, Nat.xor_cancel_right, Nat.mod_eq_of_lt hb]

/-! ### Concrete instances used to evaluate the construction -/

/-- A concrete load-factor test instance (the abstracted balls-into-bins
predicate): passes exactly from range 4 upward. -/
def sampleTest : Nat → Bool := fun L => decide (4 ≤ L)

/-- A concretely constructed Vacuum filter: the test first passes at
`L = 4`, so the ranges are `[4, 4, 4, 8]` and `m = ceil(40/15.2)*4 = 12`. -/
def vacuumSample : VacuumFilter := mkVacuumFilter sampleTest 10 40 ((19 : ℚ) / 20)

theorem vacuumSample_ranges : vacuumSample.alternate_ranges = [4, 4, 4, 8] := by
  rfl

theorem vacuumSample_m : vacuumSample.m = 12 := by
  show calculateBuckets 40 ((19 : ℚ) / 20) (rangeSelection sampleTest 10 1) = 12
  have h : rangeSelection sampleTest 10 1 = 4 := by decide
  rw [h]
  unfold calculateBuckets
  norm_num [Rat.ceil]
  decide

/-- C3: the claim quantifies over every instance, bucket and fingerprint;
it fails on `vacuumSample`: bucket 8 with fingerprint 7 (class 3, range 8,
delta 7) maps to `(8 XOR 7) % 12 = 3` and back to `(3 XOR 7) % 12 = 4 ≠ 8`,
because the XOR overflows the table and the `% m` wrap is not undone by a
second XOR when `m = 12` is not a multiple of the class range 8. -/
theorem C3_alternate_involution_cex :
    (8 : Nat) < vacuumSample.m ∧
    ¬ (vacuumAlternate (fun x => x) vacuumSample.alternate_ranges vacuumSample.m
        (vacuumAlternate (fun x => x) vacuumSample.alternate_ranges
          vacuumSample.m 8 7) 7 = 8) := by
  rw [vacuumSample_ranges, vacuumSample_m]
  decide

/-- C3 (amended): for every constructed VacuumFilter, bucket `b < m` and
fingerprint `f`, the alternate function is an involution provided the
alternate range of the class of `f` divides `m`; in particular it is an
involution for every fingerprint of class 0, 1 or 2, because `m` is a
multiple of the base range by construction.  (Only class 3, whose range was
doubled after `m` was derived, can break it, as the counterexample shows.) -/
theorem C3_alternate_involution_amended (test : Nat → Bool) (fuel n : Nat)
    (lf : ℚ) (H : Nat → Nat) :
    (∀ f b, b < (mkVacuumFilter test fuel n lf).m →
      (mkVacuumFilter test fuel n lf).alternate_ranges.getD (f % 4) 0 ∣
        (mkVacuumFilter test fuel n lf).m →
      vacuumAlternate H (mkVacuumFilter test fuel n lf).alternate_ranges
        (mkVacuumFilter test fuel n lf).m
        (vacuumAlternate H (mkVacuumFilter test fuel n lf).alternate_ranges
          (mkVacuumFilter test fuel n lf).m b f) f = b) ∧
    (∀ f b, b < (mkVacuumFilter test fuel n lf).m → f % 4 ≠ 3 →
      vacuumAlternate H (mkVacuumFilter test fuel n lf).alternate_ranges
        (mkVacuumFilter test fuel n lf).m
        (vacuumAlternate H (mkVacuumFilter test fuel n lf).alternate_ranges
          (mkVacuumFilter test fuel n lf).m b f) f = b) := by
  constructor
  · intro f b hb hdvd
    obtain ⟨e, he⟩ := mkVacuumFilter_ranges_pow test fuel n lf (f % 4)
      (Nat.mod_lt _ (by norm_num))
    exact alternate_involution_of_dvd H _ _ b f e he hdvd hb
  · intro f b hb hcls
    obtain ⟨e, he⟩ := mkVacuumFilter_ranges_pow test fuel n lf (f % 4)
      (Nat.mod_lt _ (by norm_num))
    apply alternate_involution_of_dvd H _ _ b f e he _ hb
    have h4 : f % 4 = 0 ∨ f % 4 = 1 ∨ f % 4 = 2 := by omega
    have hbase := mkVacuumFilter_base_dvd_m test fuel n lf
    rcases h4 with h | h | h <;>
      simp only [h, mkVacuumFilter_ranges, List.getD_cons_zero,
        List.getD_cons_succ] <;> exact hbase

/-- C3 witness: the amended involution evaluated on `vacuumSample` with the
class-2 fingerprint 2 at bucket 5. -/
theorem C3_alternate_involution_witness :
    vacuumAlternate (fun x => x) vacuumSample.alternate_ranges vacuumSample.m
      (vacuumAlternate (fun x => x) vacuumSample.alternate_ranges
        vacuumSample.m 5 2) 2 = 5 :=
  (C3_alternate_involution_amended sampleTest 10 40 ((19 : ℚ) / 20)
    (fun x => x)).2 2 5 (by rw [show (mkVacuumFilter sampleTest 10 40
      ((19 : ℚ) / 20)).m = 12 from vacuumSample_m]; decide) (by decide)

/-- C5: the ranges are computed by the doubling loop and index 3 is doubled
(`[4, 4, 4, 8]` on `vacuumSample`), but `m = 12` is only a multiple of
`alternate_ranges[0] = 4`; it is NOT a multiple of the largest range
`alternate_ranges[3] = 8`, contradicting the claimed (and code-commented)
rounding to a multiple of the largest range. -/
theorem C5_rounding_ignores_largest_range :
    vacuumSample.alternate_ranges = [4, 4, 4, 8] ∧
    vacuumSample.m = 12 ∧
    (∀ r ∈ vacuumSample.alternate_ranges, r ≤ 8) ∧
    8 ∈ vacuumSample.alternate_ranges ∧
    vacuumSample.alternate_ranges.getD 0 0 ∣ vacuumSample.m ∧
    ¬ (8 ∣ vacuumSample.m) := by
  rw [vacuumSample_ranges, vacuumSample_m]
  refine ⟨rfl, rfl, ?_, ?_, ?_, ?_⟩ <;> decide

/-- C6: none of the three constructors validates its parameters.
`BloomFilter(0, 3)` is built and the error only surfaces as a
division by zero inside the first `insert`; `BloomFilter(5, 0)` is built and
`contains` then vacuously answers true for everything; `CuckooFilter(0)` is
built and `insert` divides by zero; `VacuumFilter(8, load_factor = 1)`
completes construction normally. -/
theorem C6_constructors_do_not_fail_fast :
    mkBloomFilter 0 3 = ⟨0, 3, []⟩ ∧
    bloomInsert (fun s i => s + i) (mkBloomFilter 0 3) 7 = none ∧
    bloomContains (fun s i => s + i) (mkBloomFilter 5 0) 42 = some true ∧
    mkCuckooFilter 0 4 500 = ⟨0, 4, 500, []⟩ ∧
    cuckooInsert (fun x => x) (mkCuckooFilter 0 4 500) 7 true [] = none ∧
    (mkVacuumFilter (fun _ => true) 1 8 (1 : ℚ)).m = 2 := by
  refine ⟨by decide, by decide, by decide, by decide, by decide, ?_⟩
  show calculateBuckets 8 (1 : ℚ) (rangeSelection (fun _ => true) 1 1) = 2
  have h : rangeSelection (fun _ => true) 1 1 = 1 := by decide
  rw [h]
  unfold calculateBuckets
  norm_num [Rat.ceil]
  decide

/-- C7: the claim that `BloomFilter.insert` returns true fails on any call:
the Python method has no return statement, so it returns `None` (`some none`
after a normal run, never `some (some true)`). -/
theorem C7_bloom_insert_cex :
    (bloomInsert (fun s i => s + i) (mkBloomFilter 8 2) 5).map Prod.snd =
      some none := by decide

/-- C7 (amended): Bloom insertion indeed has no failure return value, but
whenever the call completes normally its Python result is `None`, not a
boolean. -/
theorem C7_bloom_insert_none (H2 : Nat → Nat → Nat) (b : BloomFilter)
    (item : Nat) (p : BloomFilter × Option Bool)
    (h : bloomInsert H2 b item = some p) : p.2 = none := by
  unfold bloomInsert at h
  cases hs : bloomSetBits H2 b.size item 0 b.num_hashes b.bit_array with
  | none =>
    rw [hs] at h
    exact absurd h (by simp)
  | some arr =>
    rw [hs] at h
    have h2 : some ((⟨b.size, b.num_hashes, arr⟩ : BloomFilter),
        (none : Option Bool)) = some p := h
    injection h2 with h3
    rw [← h3]

/-- C7 witness: the amended statement applied to a concrete insertion. -/
theorem C7_bloom_insert_none_witness :
    ((⟨8, 2, [false, false, false, false, false, true, true, false]⟩ :
        BloomFilter), (none : Option Bool)).2 = none :=
  C7_bloom_insert_none (fun s i => s + i) (mkBloomFilter 8 2) 5 _ (by decide)

/-- C9: the claim quantifies over every size at least 1; it fails for
`size = 3`: with `H(item) = 1` and `H(fingerprint) = 2` the partner index is
`1 XOR 2 = 3`, outside the table, and `contains` raises IndexError
(`none`). -/
theorem C9_index_safety_cex :
    1 ≤ (mkCuckooFilter 3 4 5).size ∧
    cuckooContains (fun x => if x = 1 then 2 else 1) (mkCuckooFilter 3 4 5) 0 =
      none := by decide

/-! ### Failed insertions preserve the occupancy profile -/

theorem list_set_self_of_getElem? {α : Type _} :
    ∀ (l : List α) (i : Nat) (a : α), l[i]? = some a → l.set i a = l
  | [], _, _, h => by simp at h
  | x :: xs, 0, a, h => by
    simp only [List.getElem?_cons_zero, Option.some_inj] at h
    simp [h]
  | x :: xs, i + 1, a, h => by
    simp only [List.getElem?_cons_succ] at h
    simp [List.set_cons_succ, list_set_self_of_getElem? xs i a h]

theorem map_length_set_of_length_eq (t : List (List Nat)) (i : Nat)
    (b : List Nat) (h : b.length = (bucketAt t i).length) :
    (t.set i b).map List.length = t.map List.length := by
  rcases Nat.lt_or_ge i t.length with hi | hi
  · rw [List.map_set]
    apply list_set_self_of_getElem?
    rw [List.getElem?_map, bucketAt_getElem? hi]
    simp [h]
  · rw [list_set_oob _ _ _ hi]

theorem cuckooKickLoop_false_lengths (H : Nat → Nat) (size cap : Nat) :
    ∀ (fuel : Nat) (js : List Nat) (f i : Nat) (t t2 : List (List Nat)),
      cuckooKickLoop H size cap fuel js f i t = some (t2, false) →
      t2.map List.length = t.map List.length := by
  intro fuel
  induction fuel with
  | zero =>
    intro js f i t t2 h
    unfold cuckooKickLoop at h
    injection h with h2
    simp only [Prod.mk.injEq] at h2
    rw [h2.1]
  | succ k ih =>
    intro js f i t t2 h
    unfold cuckooKickLoop at h
    split at h
    · exact absurd h (by simp)
    next bkt hacc =>
      split at h
      · exact absurd h (by simp)
      next hlen =>
        simp only [] at h
        split at h
        · exact absurd h (by simp)
        next b2 hacc2 =>
          split at h
          · injection h with h2
            exact absurd (congrArg Prod.snd h2) (by simp)
          next hroom =>
            have hrec := ih _ _ _ _ _ h
            rw [hrec]
            apply map_length_set_of_length_eq
            rw [bucketAt_of_getElem? hacc]
            simp

theorem vacuumEvictLoop_false_lengths (H : Nat → Nat) (ranges : List Nat)
    (m slots : Nat) :
    ∀ (fuel : Nat) (picks : List Nat) (cf cb : Nat) (t t2 : List (List Nat)),
      vacuumEvictLoop H ranges m slots fuel picks cf cb t = some (t2, false) →
      t2.map List.length = t.map List.length := by
  intro fuel
  induction fuel with
  | zero =>
    intro picks cf cb t t2 h
    unfold vacuumEvictLoop at h
    injection h with h2
    simp only [Prod.mk.injEq] at h2
    rw [h2.1]
  | succ k ih =>
    intro picks cf cb t t2 h
    unfold vacuumEvictLoop at h
    split at h
    · simp only [] at h
      injection h with h2
      exact absurd (congrArg Prod.snd h2) (by simp)
    · simp only [] at h
      split at h
      · exact absurd h (by simp)
      next evicted hei =>
        have hrec := ih _ _ _ _ _ h
        rw [hrec]
        apply map_length_set_of_length_eq
        simp

/-- C2: the claim fails: a failed insert enters the evicted-fingerprint
chain and drops the final victim while storing the new fingerprint.  On a
one-bucket CuckooFilter holding fingerprint 1, a failed insert of an item
with fingerprint 2 leaves the table holding 2 instead of 1: the multiset of
stored fingerprints changed and the new fingerprint IS stored. -/
theorem C2_insert_failure_cex :
    cuckooInsert (fun x => if x = 0 then 1 else 2) ⟨1, 1, 1, [[1]]⟩ 1 true [0] =
      some (⟨1, 1, 1, [[2]]⟩, false) ∧
    (2 : Nat) ∈ bucketAt [[2]] 0 ∧ ¬ ((1 : Nat) ∈ bucketAt [[2]] 0) := by
  decide

/-- C2 (amended): when a Cuckoo or Vacuum insert returns false, every bucket
keeps its exact occupancy (so the occupancy profile and total count are
unchanged and no slot is leaked or overfilled), but the multiset of stored
fingerprints may differ: the rejected item's fingerprint may remain stored
in place of the final evicted victim, which is lost. -/
theorem C2_insert_failure_occupancy :
    (∀ (H : Nat → Nat) (c : CuckooFilter) (item : Nat) (coin : Bool)
      (js : List Nat) (c2 : CuckooFilter),
      cuckooInsert H c item coin js = some (c2, false) →
      c2.table.map List.length = c.table.map List.length) ∧
    (∀ (H : Nat → Nat) (v : VacuumFilter) (item : Nat) (coin : Bool)
      (picks : List Nat) (v2 : VacuumFilter),
      vacuumInsert H v item coin picks = some (v2, false) →
      v2.table.map List.length = v.table.map List.length) := by
  constructor
  · intro H c item coin js c2 h
    unfold cuckooInsert at h
    split at h
    · exact absurd h (by simp)
    next i1 i2 hidx =>
      simp only [] at h
      split at h
      · exact absurd h (by simp)
      next b1 hacc1 =>
        split at h
        · injection h with h2
          exact absurd (congrArg Prod.snd h2) (by simp)
        · split at h
          · exact absurd h (by simp)
          next b2 hacc2 =>
            split at h
            · injection h with h2
              exact absurd (congrArg Prod.snd h2) (by simp)
            · rcases Option.map_eq_some'.mp h with ⟨⟨t2, r⟩, hk, hfn⟩
              have hr : r = false := by
                have := congrArg Prod.snd hfn
                simpa using this
              have ht : c2.table = t2 := by
                have := congrArg (fun q => CuckooFilter.table q.1) hfn
                simpa using this.symm
              rw [ht]
              exact cuckooKickLoop_false_lengths H c.size c.bucket_size _ _ _ _
                _ _ (hr ▸ hk)
  · intro H v item coin picks v2 h
    unfold vacuumInsert at h
    split at h
    · exact absurd h (by simp)
    next hm =>
      simp only [] at h
      split at h
      · injection h with h2
        exact absurd (congrArg Prod.snd h2) (by simp)
      · split at h
        · injection h with h2
          exact absurd (congrArg Prod.snd h2) (by simp)
        · rcases Option.map_eq_some'.mp h with ⟨⟨t2, r⟩, hk, hfn⟩
          have hr : r = false := by
            have := congrArg Prod.snd hfn
            simpa using this
          have ht : v2.table = t2 := by
            have := congrArg (fun q => VacuumFilter.table q.1) hfn
            simpa using this.symm
          rw [ht]
          exact vacuumEvictLoop_false_lengths H v.alternate_ranges v.m
            v.slots_per_bucket _ _ _ _ _ _ (hr ▸ hk)

set_option maxRecDepth 100000 in
/-- C2 witness: the amended occupancy preservation applied to a concrete
failed Cuckoo insert and a concrete failed Vacuum insert. -/
theorem C2_insert_failure_witness :
    ([[2]] : List (List Nat)).map List.length =
      ([[1]] : List (List Nat)).map List.length ∧
    ([[5, 6, 7, 8]] : List (List Nat)).map List.length =
      ([[5, 6, 7, 8]] : List (List Nat)).map List.length := by
  constructor
  · exact C2_insert_failure_occupancy.1 (fun x => if x = 0 then 1 else 2)
      ⟨1, 1, 1, [[1]]⟩ 1 true [0] ⟨1, 1, 1, [[2]]⟩ (by decide)
  · exact C2_insert_failure_occupancy.2 (fun _ => 0)
      ⟨4, 1, (1 : ℚ), [1, 1, 1, 2], 1, [[5, 6, 7, 8]]⟩ 0 true []
      ⟨4, 1, (1 : ℚ), [1, 1, 1, 2], 1, [[5, 6, 7, 8]]⟩ (by rfl)

/-- C1: the claim fails for CuckooFilter: on a one-slot filter, insert of
item 0 succeeds (returns true), then an insert call for another item 1 (no
delete of item 0 anywhere) evicts fingerprint 1 during its failed relocation
chain and drops it, after which `contains 0` answers false — a false
negative caused purely by an intervening insert call. -/
theorem C1_no_false_negatives_cex :
    (cuckooInsert (fun x => if x = 0 then 1 else 2) (mkCuckooFilter 1 1 1) 0
      true []).map Prod.snd = some true ∧
    ((cuckooRun (fun x => if x = 0 then 1 else 2) (mkCuckooFilter 1 1 1)
        [CuckooOp.ins 0 true [], CuckooOp.ins 1 true [0]]).bind
      (fun c => cuckooContains (fun x => if x = 0 then 1 else 2) c 0)) =
      some false := by decide

/-! ### Index safety of the Cuckoo operations for power-of-two sizes -/

theorem cuckooBucketIndexes_eq (H : Nat → Nat) (size item : Nat)
    (hpos : 0 < size) :
    cuckooBucketIndexes H size item =
      some (H item % size,
        (H item % size) ^^^ (H (cuckooFingerprint H item) % size)) := by
  unfold cuckooBucketIndexes
  rw [if_neg (by omega)]

theorem cuckooKickLoop_total (H : Nat → Nat) (k cap : Nat) :
    ∀ (fuel : Nat) (js : List Nat) (f i : Nat) (t : List (List Nat)),
      t.length = 2 ^ k → i < 2 ^ k → 1 ≤ cap →
      cap ≤ (bucketAt t i).length →
      cuckooKickLoop H (2 ^ k) cap fuel js f i t ≠ none := by
  intro fuel
  induction fuel with
  | zero =>
    intro js f i t _ _ _ _ h
    unfold cuckooKickLoop at h
    exact absurd h (by simp)
  | succ n ih =>
    intro js f i t hlen hi hcap hfull h
    have hit : i < t.length := by omega
    unfold cuckooKickLoop at h
    rw [bucketAt_getElem? hit] at h
    simp only [] at h
    rw [if_neg (by omega)] at h
    have hp : 0 < 2 ^ k := Nat.pos_pow_of_pos k (by norm_num)
    have hi2 : i ^^^ H ((bucketAt t i).getD
        (js.headD 0 % (bucketAt t i).length) 0) % 2 ^ k < 2 ^ k :=
      Nat.xor_lt_two_pow hi (Nat.mod_lt _ hp)
    have hlen1 : (t.set i ((bucketAt t i).set
        (js.headD 0 % (bucketAt t i).length) f)).length = 2 ^ k := by
      simpa using hlen
    rw [bucketAt_getElem? (by omega)] at h
    simp only [] at h
    split at h
    · exact absurd h (by simp)
    next hroom =>
      exact ih _ _ _ _ hlen1 hi2 hcap (by omega) h

/-- C9 (amended): for every CuckooFilter whose size is a power of two (as
the source default 1024 is) and whose table has one bucket per index, every
bucket index computed by contains, delete and insert — including every
intermediate index of the relocation loop — lies in range, so no operation
raises; insert additionally needs at least one slot per bucket (with
`bucket_size = 0` the relocation loop draws `randint(0, -1)`).  The original
claim, quantified over every size of at least 1, is refuted by the
counterexample at size 3. -/
theorem C9_index_safety_amended (H : Nat → Nat) (k : Nat) (c : CuckooFilter)
    (item : Nat) (coin : Bool) (js : List Nat)
    (hsize : c.size = 2 ^ k) (hlen : c.table.length = c.size) :
    (1 ≤ c.bucket_size → cuckooInsert H c item coin js ≠ none) ∧
    cuckooContains H c item ≠ none ∧
    cuckooDelete H c item ≠ none := by
  have hpos : 0 < c.size := by rw [hsize]; positivity
  have hp : 0 < 2 ^ k := by positivity
  have hi1 : H item % c.size < c.size := Nat.mod_lt _ hpos
  have hi2 : (H item % c.size) ^^^ (H (cuckooFingerprint H item) % c.size)
      < c.size := by
    rw [hsize]
    exact Nat.xor_lt_two_pow (hsize ▸ hi1) (Nat.mod_lt _ (hsize ▸ hpos))
  refine ⟨?_, ?_, ?_⟩
  · intro hcap h
    unfold cuckooInsert at h
    rw [cuckooBucketIndexes_eq H c.size item hpos] at h
    simp only [] at h
    rw [bucketAt_getElem? (by omega)] at h
    simp only [] at h
    split at h
    · exact absurd h (by simp)
    next hroom1 =>
      rw [bucketAt_getElem? (by omega)] at h
      simp only [] at h
      split at h
      · exact absurd h (by simp)
      next hroom2 =>
        rw [Option.map_eq_none'] at h
        have hfull1 : c.bucket_size ≤
            (bucketAt c.table (H item % c.size)).length := by omega
        have hfull2 : c.bucket_size ≤ (bucketAt c.table ((H item % c.size) ^^^
            (H (cuckooFingerprint H item) % c.size))).length := by omega
        rw [hsize] at h
        cases coin with
        | true =>
          rw [if_pos rfl] at h
          exact cuckooKickLoop_total H k c.bucket_size c.max_kicks js _ _ _
            (by omega) (hsize ▸ hi1) hcap
            (by rw [← hsize]; exact hsize ▸ hfull1) h
        | false =>
          rw [if_neg (by simp)] at h
          exact cuckooKickLoop_total H k c.bucket_size c.max_kicks js _ _ _
            (by omega) (hsize ▸ hi2) hcap
            (by rw [← hsize]; exact hsize ▸ hfull2) h
  · intro h
    unfold cuckooContains at h
    rw [cuckooBucketIndexes_eq H c.size item hpos] at h
    simp only [] at h
    rw [bucketAt_getElem? (by omega)] at h
    simp only [] at h
    split at h
    · exact absurd h (by simp)
    · rw [bucketAt_getElem? (by omega)] at h
      exact absurd h (by simp)
  · intro h
    unfold cuckooDelete at h
    rw [cuckooBucketIndexes_eq H c.size item hpos] at h
    simp only [] at h
    rw [bucketAt_getElem? (by omega)] at h
    simp only [] at h
    split at h
    · exact absurd h (by simp)
    · rw [bucketAt_getElem? (by omega)] at h
      simp only [] at h
      split at h
      · exact absurd h (by simp)
      · exact absurd h (by simp)

/-- C9 witness: the amended totality on a concrete power-of-two filter. -/
theorem C9_index_safety_witness :
    cuckooInsert (fun x => x) (mkCuckooFilter 4 2 3) 9 true [] ≠ none ∧
    cuckooContains (fun x => x) (mkCuckooFilter 4 2 3) 9 ≠ none ∧
    cuckooDelete (fun x => x) (mkCuckooFilter 4 2 3) 9 ≠ none := by
  have h := C9_index_safety_amended (fun x => x) 2 (mkCuckooFilter 4 2 3) 9
    true [] (by decide) (by decide)
  exact ⟨h.1 (by decide), h.2.1, h.2.2⟩

/-- C8: delete returns true iff the fingerprint is present in one of the two
candidate buckets; on success exactly one matching copy is removed (Python
`list.remove` removes the first occurrence) from the first candidate bucket
holding it; on failure the filter is completely unchanged.  Stated for both
CuckooFilter (candidate indexes in range) and VacuumFilter (nonempty
table). -/
theorem C8_delete_semantics :
    (∀ (H : Nat → Nat) (c : CuckooFilter) (item i1 i2 : Nat),
      cuckooBucketIndexes H c.size item = some (i1, i2) →
      i1 < c.table.length → i2 < c.table.length →
      ∃ r : CuckooFilter × Bool,
        cuckooDelete H c item = some r ∧
        (r.2 = true ↔ cuckooFingerprint H item ∈ bucketAt c.table i1 ∨
          cuckooFingerprint H item ∈ bucketAt c.table i2) ∧
        (r.2 = true → ∃ b, (b = i1 ∨ b = i2) ∧
          cuckooFingerprint H item ∈ bucketAt c.table b ∧
          r.1 = { c with table := c.table.set b ((bucketAt c.table b).erase (cuckooFingerprint H item)) }) ∧
        (r.2 = false → r.1 = c)) ∧
    (∀ (H : Nat → Nat) (v : VacuumFilter) (item : Nat), 0 < v.m →
      ∃ r : VacuumFilter × Bool,
        vacuumDelete H v item = some r ∧
        (r.2 = true ↔ H item ∈ bucketAt v.table (vacuumMap (H item) v.m) ∨
          H item ∈ bucketAt v.table (vacuumAlternate H v.alternate_ranges v.m
            (vacuumMap (H item) v.m) (H item))) ∧
        (r.2 = true → ∃ b, (b = vacuumMap (H item) v.m ∨
            b = vacuumAlternate H v.alternate_ranges v.m
              (vacuumMap (H item) v.m) (H item)) ∧
          H item ∈ bucketAt v.table b ∧
          r.1 = { v with table := v.table.set b ((bucketAt v.table b).erase (H item)) }) ∧
        (r.2 = false → r.1 = v)) := by
  constructor
  · intro H c item i1 i2 hidx h1 h2
    by_cases hf1 : cuckooFingerprint H item ∈ bucketAt c.table i1
    · refine ⟨({ c with table := c.table.set i1 ((bucketAt c.table i1).erase (cuckooFingerprint H item)) }, true),
          ?_, ?_, ?_, ?_⟩
      · unfold cuckooDelete
        rw [hidx]
        simp only []
        rw [bucketAt_getElem? h1]
        simp only []
        rw [if_pos hf1]
      · simp [hf1]
      · intro _
        exact ⟨i1, Or.inl rfl, hf1, rfl⟩
      · intro hfalse
        simp at hfalse
    · by_cases hf2 : cuckooFingerprint H item ∈ bucketAt c.table i2
      · refine ⟨({ c with table := c.table.set i2 ((bucketAt c.table i2).erase (cuckooFingerprint H item)) }, true),
            ?_, ?_, ?_, ?_⟩
        · unfold cuckooDelete
          rw [hidx]
          simp only []
          rw [bucketAt_getElem? h1]
          simp only []
          rw [if_neg hf1, bucketAt_getElem? h2]
          simp only []
          rw [if_pos hf2]
        · simp [hf2]
        · intro _
          exact ⟨i2, Or.inr rfl, hf2, rfl⟩
        · intro hfalse
          simp at hfalse
      · refine ⟨(c, false), ?_, ?_, ?_, ?_⟩
        · unfold cuckooDelete
          rw [hidx]
          simp only []
          rw [bucketAt_getElem? h1]
          simp only []
          rw [if_neg hf1, bucketAt_getElem? h2]
          simp only []
          rw [if_neg hf2]
        · simp [hf1, hf2]
        · intro htrue
          simp at htrue
        · intro _
          rfl
  · intro H v item hm
    by_cases hf1 : H item ∈ bucketAt v.table (vacuumMap (H item) v.m)
    · refine ⟨({ v with table := v.table.set (vacuumMap (H item) v.m) ((bucketAt v.table (vacuumMap (H item) v.m)).erase (H item)) }, true),
          ?_, ?_, ?_, ?_⟩
      · unfold vacuumDelete
        rw [if_neg (by omega)]
        simp only []
        rw [if_pos hf1]
      · simp [hf1]
      · intro _
        exact ⟨vacuumMap (H item) v.m, Or.inl rfl, hf1, rfl⟩
      · intro hfalse
        simp at hfalse
    · by_cases hf2 : H item ∈ bucketAt v.table (vacuumAlternate H
          v.alternate_ranges v.m (vacuumMap (H item) v.m) (H item))
      · refine ⟨({ v with table := v.table.set (vacuumAlternate H v.alternate_ranges v.m (vacuumMap (H item) v.m) (H item)) ((bucketAt v.table (vacuumAlternate H v.alternate_ranges v.m (vacuumMap (H item) v.m) (H item))).erase (H item)) }, true),
            ?_, ?_, ?_, ?_⟩
        · unfold vacuumDelete
          rw [if_neg (by omega)]
          simp only []
          rw [if_neg hf1, if_pos hf2]
        · simp [hf2]
        · intro _
          refine ⟨vacuumAlternate H v.alternate_ranges v.m
            (vacuumMap (H item) v.m) (H item), Or.inr rfl, hf2, rfl⟩
        · intro hfalse
          simp at hfalse
      · refine ⟨(v, false), ?_, ?_, ?_, ?_⟩
        · unfold vacuumDelete
          rw [if_neg (by omega)]
          simp only []
          rw [if_neg hf1, if_neg hf2]
        · simp [hf1, hf2]
        · intro htrue
          simp at htrue
        · intro _
          rfl

/-- C8 witness: delete on concrete filters holding the fingerprint. -/
theorem C8_delete_semantics_witness :
    (∃ r : CuckooFilter × Bool,
      cuckooDelete (fun x => x) ⟨4, 2, 3, [[], [9], [], []]⟩ 9 = some r ∧
        r.2 = true) ∧
    (∃ r : VacuumFilter × Bool,
      vacuumDelete (fun _ => 3) ⟨4, 1, (1 : ℚ), [1, 1, 1, 2], 1, [[3]]⟩ 0 =
        some r ∧ r.2 = true) := by
  constructor
  · obtain ⟨r, hsome, hiff, _, _⟩ := C8_delete_semantics.1 (fun x => x)
      ⟨4, 2, 3, [[], [9], [], []]⟩ 9 1 0 (by decide) (by decide) (by decide)
    exact ⟨r, hsome, hiff.mpr (Or.inl (by decide))⟩
  · obtain ⟨r, hsome, hiff, _, _⟩ := C8_delete_semantics.2 (fun _ => 3)
      ⟨4, 1, (1 : ℚ), [1, 1, 1, 2], 1, [[3]]⟩ 0 (by decide)
    exact ⟨r, hsome, hiff.mpr (Or.inl (by decide))⟩

/-! ### Capacity bounds and eviction-loop safety -/

theorem vacuumFindAlt_mem (H : Nat → Nat) (ranges : List Nat) (m slots : Nat)
    (t : List (List Nat)) (cb : Nat) :
    ∀ (lst : List Nat) (g : Nat),
      vacuumFindAlt H ranges m slots t cb lst = some g → g ∈ lst := by
  intro lst
  induction lst with
  | nil => intro g h; exact absurd h (by simp [vacuumFindAlt])
  | cons x xs ih =>
    intro g h
    unfold vacuumFindAlt at h
    split at h
    · injection h with h2
      exact h2 ▸ List.mem_cons_self x xs
    · exact List.mem_cons_of_mem x (ih g h)

theorem vacuumFindAlt_room (H : Nat → Nat) (ranges : List Nat)
    (m slots : Nat) (t : List (List Nat)) (cb : Nat) :
    ∀ (lst : List Nat) (g : Nat),
      vacuumFindAlt H ranges m slots t cb lst = some g →
      (bucketAt t (vacuumAlternate H ranges m cb g)).length < slots := by
  intro lst
  induction lst with
  | nil => intro g h; exact absurd h (by simp [vacuumFindAlt])
  | cons x xs ih =>
    intro g h
    unfold vacuumFindAlt at h
    split at h
    next hroom =>
      injection h with h2
      exact h2 ▸ hroom
    · exact ih g h

theorem vacuumFindAlt_none (H : Nat → Nat) (ranges : List Nat)
    (m slots : Nat) (t : List (List Nat)) (cb : Nat) :
    ∀ (lst : List Nat),
      vacuumFindAlt H ranges m slots t cb lst = none →
      ∀ g ∈ lst, ¬ (bucketAt t (vacuumAlternate H ranges m cb g)).length < slots := by
  intro lst
  induction lst with
  | nil => intro _ g hg; exact absurd hg (by simp)
  | cons x xs ih =>
    intro h g hg
    unfold vacuumFindAlt at h
    split at h
    · exact absurd h (by simp)
    next hroom =>
      rcases List.mem_cons.mp hg with rfl | hg2
      · exact hroom
      · exact ih h g hg2

theorem vacuumEvictLoop_bounded (H : Nat → Nat) (ranges : List Nat)
    (m slots : Nat) :
    ∀ (fuel : Nat) (picks : List Nat) (cf cb : Nat) (t : List (List Nat))
      (p : List (List Nat) × Bool), TableBounded slots t →
      vacuumEvictLoop H ranges m slots fuel picks cf cb t = some p →
      TableBounded slots p.1 := by
  intro fuel
  induction fuel with
  | zero =>
    intro picks cf cb t p ht h
    unfold vacuumEvictLoop at h
    injection h with h2
    rw [← h2]
    exact ht
  | succ k ih =>
    intro picks cf cb t p ht h
    unfold vacuumEvictLoop at h
    split at h
    next g hfind =>
      simp only [] at h
      injection h with h2
      rw [← h2]
      have hg : g ∈ bucketAt t cb := vacuumFindAlt_mem H ranges m slots t cb _ g hfind
      have hroom : (bucketAt t (vacuumAlternate H ranges m cb g)).length < slots :=
        vacuumFindAlt_room H ranges m slots t cb _ g hfind
      have ht1 : TableBounded slots
          (t.set (vacuumAlternate H ranges m cb g)
            (bucketAt t (vacuumAlternate H ranges m cb g) ++ [g])) := by
        apply tableBounded_set ht
        simp only [List.length_append, List.length_cons, List.length_nil]
        omega
      apply tableBounded_set ht1
      have hgt1 : g ∈ bucketAt
          (t.set (vacuumAlternate H ranges m cb g)
            (bucketAt t (vacuumAlternate H ranges m cb g) ++ [g])) cb := by
        by_cases hcb : vacuumAlternate H ranges m cb g = cb
        · rw [hcb]
          rcases Nat.lt_or_ge cb t.length with hlt | hge
          · rw [bucketAt_set_self _ _ _ hlt]
            exact List.mem_append_right _ (by simp)
          · exact absurd hg (by simp [bucketAt_oob t cb hge])
        · rw [bucketAt_set_ne _ _ _ _ hcb]
          exact hg
      have hle := tableBounded_bucketAt ht1 cb
      have hpos : 1 ≤ (bucketAt
          (t.set (vacuumAlternate H ranges m cb g)
            (bucketAt t (vacuumAlternate H ranges m cb g) ++ [g])) cb).length :=
        List.length_pos_of_mem hgt1
      have herase := List.length_erase_of_mem hgt1
      simp only [List.length_append, List.length_cons, List.length_nil, herase]
      omega
    · simp only [] at h
      split at h
      · exact absurd h (by simp)
      next evicted hei =>
        apply ih _ _ _ _ _ _ h
        apply tableBounded_set ht
        have := tableBounded_bucketAt ht cb
        simpa using this

theorem vacuumEvictLoop_total (H : Nat → Nat) (ranges : List Nat)
    (m slots : Nat) (hslots : 0 < slots) :
    ∀ (fuel : Nat) (picks : List Nat) (cf cb : Nat) (t : List (List Nat)),
      TableBounded slots t → (bucketAt t cb).length = slots →
      vacuumEvictLoop H ranges m slots fuel picks cf cb t ≠ none := by
  intro fuel
  induction fuel with
  | zero =>
    intro picks cf cb t _ _ h
    unfold vacuumEvictLoop at h
    exact absurd h (by simp)
  | succ k ih =>
    intro picks cf cb t ht hfull h
    unfold vacuumEvictLoop at h
    split at h
    · simp only [] at h
      exact absurd h (by simp)
    next hfind =>
      simp only [] at h
      have hei : picks.headD 0 % slots < (bucketAt t cb).length := by
        rw [hfull]
        exact Nat.mod_lt _ hslots
      rw [List.getElem?_eq_getElem hei] at h
      have hcblt : cb < t.length := by
        apply bucketAt_lt_of_ne_nil
        intro hnil
        rw [hnil] at hfull
        simp at hfull
        omega
      have hmem : (bucketAt t cb)[picks.headD 0 % slots] ∈ bucketAt t cb :=
        List.getElem_mem hei
      have hnotroom := vacuumFindAlt_none H ranges m slots t cb _ hfind _ hmem
      have hb1 : TableBounded slots
          (t.set cb ((bucketAt t cb).set (picks.headD 0 % slots) cf)) := by
        apply tableBounded_set ht
        have := tableBounded_bucketAt ht cb
        simpa using this
      have hfull1 : (bucketAt
          (t.set cb ((bucketAt t cb).set (picks.headD 0 % slots) cf))
          (vacuumAlternate H ranges m cb
            ((bucketAt t cb)[picks.headD 0 % slots]))).length = slots := by
        have hge : slots ≤ (bucketAt t
            (vacuumAlternate H ranges m cb
              ((bucketAt t cb)[picks.headD 0 % slots]))).length := by omega
        have hle := tableBounded_bucketAt ht
          (vacuumAlternate H ranges m cb
            ((bucketAt t cb)[picks.headD 0 % slots]))
        by_cases hcb : vacuumAlternate H ranges m cb
            ((bucketAt t cb)[picks.headD 0 % slots]) = cb
        · rw [hcb, bucketAt_set_self _ _ _ hcblt]
          rw [hcb] at hge
          simp only [List.length_set]
          omega
        · rw [bucketAt_set_ne _ _ _ _ (Ne.symm hcb)]
          omega
      exact ih _ _ _ _ hb1 hfull1 h

/-- C10: whenever the random-eviction step of `VacuumFilter.insert` runs,
the current bucket is exactly full (the relocation chain only moves to
buckets whose occupants were all checked to have full alternates), so the
drawn slot index is in range: the eviction loop never raises when started at
a full bucket of a capacity-respecting table, and insert never raises on
such a filter. -/
theorem C10_eviction_slot_in_range :
    (∀ (H : Nat → Nat) (ranges : List Nat) (m slots fuel : Nat)
      (picks : List Nat) (cf cb : Nat) (t : List (List Nat)), 0 < slots →
      TableBounded slots t → (bucketAt t cb).length = slots →
      vacuumEvictLoop H ranges m slots fuel picks cf cb t ≠ none) ∧
    (∀ (H : Nat → Nat) (v : VacuumFilter) (item : Nat) (coin : Bool)
      (picks : List Nat), 0 < v.m → 0 < v.slots_per_bucket →
      TableBounded v.slots_per_bucket v.table →
      vacuumInsert H v item coin picks ≠ none) := by
  constructor
  · intro H ranges m slots fuel picks cf cb t hs ht hfull
    exact vacuumEvictLoop_total H ranges m slots hs fuel picks cf cb t ht hfull
  · intro H v item coin picks hm hs ht h
    unfold vacuumInsert at h
    rw [if_neg (by omega)] at h
    simp only [] at h
    split at h
    · exact absurd h (by simp)
    next hroom1 =>
      split at h
      · exact absurd h (by simp)
      next hroom2 =>
        rw [Option.map_eq_none'] at h
        have hb1 : (bucketAt v.table (vacuumMap (H item) v.m)).length =
            v.slots_per_bucket := by
          have := tableBounded_bucketAt ht (vacuumMap (H item) v.m)
          omega
        have hb2 : (bucketAt v.table (vacuumAlternate H v.alternate_ranges
            v.m (vacuumMap (H item) v.m) (H item))).length =
            v.slots_per_bucket := by
          have := tableBounded_bucketAt ht (vacuumAlternate H
            v.alternate_ranges v.m (vacuumMap (H item) v.m) (H item))
          omega
        cases coin with
        | true =>
          rw [if_pos rfl] at h
          exact vacuumEvictLoop_total H v.alternate_ranges v.m
            v.slots_per_bucket hs 500 picks _ _ _ ht hb1 h
        | false =>
          rw [if_neg (by simp)] at h
          exact vacuumEvictLoop_total H v.alternate_ranges v.m
            v.slots_per_bucket hs 500 picks _ _ _ ht hb2 h

/-- C10 witness: insert into a concrete full one-bucket Vacuum filter does
not raise. -/
theorem C10_eviction_slot_in_range_witness :
    vacuumInsert (fun _ => 0) ⟨4, 1, (1 : ℚ), [1, 1, 1, 2], 1, [[5, 6, 7, 8]]⟩
      0 true [] ≠ none :=
  C10_eviction_slot_in_range.2 (fun _ => 0)
    ⟨4, 1, (1 : ℚ), [1, 1, 1, 2], 1, [[5, 6, 7, 8]]⟩ 0 true []
    (by decide) (by decide) (by decide)

theorem cuckooKickLoop_bounded (H : Nat → Nat) (size cap : Nat) :
    ∀ (fuel : Nat) (js : List Nat) (f i : Nat) (t : List (List Nat))
      (p : List (List Nat) × Bool), TableBounded cap t →
      cuckooKickLoop H size cap fuel js f i t = some p →
      TableBounded cap p.1 := by
  intro fuel
  induction fuel with
  | zero =>
    intro js f i t p ht h
    unfold cuckooKickLoop at h
    injection h with h2
    rw [← h2]
    exact ht
  | succ n ih =>
    intro js f i t p ht h
    unfold cuckooKickLoop at h
    split at h
    · exact absurd h (by simp)
    next bkt hacc =>
      split at h
      · exact absurd h (by simp)
      next hne =>
        simp only [] at h
        have hbkt : bkt.length ≤ cap := by
          rw [← bucketAt_of_getElem? hacc]
          exact tableBounded_bucketAt ht i
        have ht1 : TableBounded cap
            (t.set i (bkt.set (js.headD 0 % bkt.length) f)) := by
          apply tableBounded_set ht
          simpa using hbkt
        split at h
        · exact absurd h (by simp)
        next b2 hacc2 =>
          split at h
          next hroom =>
            injection h with h2
            rw [← h2]
            apply tableBounded_set ht1
            simp only [List.length_append, List.length_cons, List.length_nil]
            omega
          · exact ih _ _ _ _ _ ht1 h

theorem cuckooKickLoop_length (H : Nat → Nat) (size cap : Nat) :
    ∀ (fuel : Nat) (js : List Nat) (f i : Nat) (t : List (List Nat))
      (p : List (List Nat) × Bool),
      cuckooKickLoop H size cap fuel js f i t = some p →
      p.1.length = t.length := by
  intro fuel
  induction fuel with
  | zero =>
    intro js f i t p h
    unfold cuckooKickLoop at h
    injection h with h2
    rw [← h2]
  | succ n ih =>
    intro js f i t p h
    unfold cuckooKickLoop at h
    split at h
    · exact absurd h (by simp)
    next bkt hacc =>
      split at h
      · exact absurd h (by simp)
      next hne =>
        simp only [] at h
        split at h
        · exact absurd h (by simp)
        next b2 hacc2 =>
          split at h
          next hroom =>
            injection h with h2
            rw [← h2]
            simp
          · rw [ih _ _ _ _ _ h]
            simp

theorem cuckooInsert_state (H : Nat → Nat) (c : CuckooFilter) (item : Nat)
    (coin : Bool) (js : List Nat) (p : CuckooFilter × Bool)
    (h : cuckooInsert H c item coin js = some p) :
    p.1.size = c.size ∧ p.1.bucket_size = c.bucket_size ∧
    p.1.max_kicks = c.max_kicks ∧ p.1.table.length = c.table.length ∧
    (TableBounded c.bucket_size c.table →
      TableBounded c.bucket_size p.1.table) := by
  unfold cuckooInsert at h
  split at h
  · exact absurd h (by simp)
  next i1 i2 hidx =>
    simp only [] at h
    split at h
    · exact absurd h (by simp)
    next b1 hacc1 =>
      split at h
      next hroom1 =>
        injection h with h2
        rw [← h2]
        refine ⟨rfl, rfl, rfl, by simp, ?_⟩
        intro ht
        apply tableBounded_set ht
        rw [← bucketAt_of_getElem? hacc1] at hroom1 ⊢
        simp only [List.length_append, List.length_cons, List.length_nil]
        omega
      · split at h
        · exact absurd h (by simp)
        next b2 hacc2 =>
          split at h
          next hroom2 =>
            injection h with h2
            rw [← h2]
            refine ⟨rfl, rfl, rfl, by simp, ?_⟩
            intro ht
            apply tableBounded_set ht
            rw [← bucketAt_of_getElem? hacc2] at hroom2 ⊢
            simp only [List.length_append, List.length_cons, List.length_nil]
            omega
          · rcases Option.map_eq_some'.mp h with ⟨⟨t2, r⟩, hk, hfn⟩
            rw [← hfn]
            refine ⟨rfl, rfl, rfl,
              cuckooKickLoop_length H c.size c.bucket_size _ _ _ _ _ _ hk, ?_⟩
            intro ht
            exact cuckooKickLoop_bounded H c.size c.bucket_size _ _ _ _ _ _
              ht hk

theorem cuckooDelete_state (H : Nat → Nat) (c : CuckooFilter) (item : Nat)
    (p : CuckooFilter × Bool) (h : cuckooDelete H c item = some p) :
    p.1.size = c.size ∧ p.1.bucket_size = c.bucket_size ∧
    p.1.max_kicks = c.max_kicks ∧ p.1.table.length = c.table.length ∧
    (TableBounded c.bucket_size c.table →
      TableBounded c.bucket_size p.1.table) := by
  unfold cuckooDelete at h
  split at h
  · exact absurd h (by simp)
  next i1 i2 hidx =>
    simp only [] at h
    split at h
    · exact absurd h (by simp)
    next b1 hacc1 =>
      split at h
      next hf1 =>
        injection h with h2
        rw [← h2]
        refine ⟨rfl, rfl, rfl, by simp, ?_⟩
        intro ht
        apply tableBounded_set ht
        calc (b1.erase (cuckooFingerprint H item)).length
            ≤ b1.length := List.length_erase_le _ _
          _ ≤ c.bucket_size := by
              rw [← bucketAt_of_getElem? hacc1]
              exact tableBounded_bucketAt ht i1
      · split at h
        · exact absurd h (by simp)
        next b2 hacc2 =>
          split at h
          next hf2 =>
            injection h with h2
            rw [← h2]
            refine ⟨rfl, rfl, rfl, by simp, ?_⟩
            intro ht
            apply tableBounded_set ht
            calc (b2.erase (cuckooFingerprint H item)).length
                ≤ b2.length := List.length_erase_le _ _
              _ ≤ c.bucket_size := by
                  rw [← bucketAt_of_getElem? hacc2]
                  exact tableBounded_bucketAt ht i2
          · injection h with h2
            rw [← h2]
            exact ⟨rfl, rfl, rfl, rfl, fun ht => ht⟩

theorem vacuumEvictLoop_length (H : Nat → Nat) (ranges : List Nat)
    (m slots : Nat) :
    ∀ (fuel : Nat) (picks : List Nat) (cf cb : Nat) (t : List (List Nat))
      (p : List (List Nat) × Bool),
      vacuumEvictLoop H ranges m slots fuel picks cf cb t = some p →
      p.1.length = t.length := by
  intro fuel
  induction fuel with
  | zero =>
    intro picks cf cb t p h
    unfold vacuumEvictLoop at h
    injection h with h2
    rw [← h2]
  | succ k ih =>
    intro picks cf cb t p h
    unfold vacuumEvictLoop at h
    split at h
    next g hfind =>
      simp only [] at h
      injection h with h2
      rw [← h2]
      simp
    · simp only [] at h
      split at h
      · exact absurd h (by simp)
      next evicted hei =>
        rw [ih _ _ _ _ _ h]
        simp

theorem vacuumInsert_state (H : Nat → Nat) (v : VacuumFilter) (item : Nat)
    (coin : Bool) (picks : List Nat) (p : VacuumFilter × Bool)
    (h : vacuumInsert H v item coin picks = some p) :
    p.1.slots_per_bucket = v.slots_per_bucket ∧ p.1.m = v.m ∧
    p.1.alternate_ranges = v.alternate_ranges ∧
    p.1.table.length = v.table.length ∧ 0 < v.m ∧
    (TableBounded v.slots_per_bucket v.table →
      TableBounded v.slots_per_bucket p.1.table) := by
  unfold vacuumInsert at h
  split at h
  · exact absurd h (by simp)
  next hm =>
    simp only [] at h
    split at h
    next hroom1 =>
      injection h with h2
      rw [← h2]
      refine ⟨rfl, rfl, rfl, by simp, by omega, ?_⟩
      intro ht
      apply tableBounded_set ht
      simp only [List.length_append, List.length_cons, List.length_nil]
      omega
    · split at h
      next hroom2 =>
        injection h with h2
        rw [← h2]
        refine ⟨rfl, rfl, rfl, by simp, by omega, ?_⟩
        intro ht
        apply tableBounded_set ht
        simp only [List.length_append, List.length_cons, List.length_nil]
        omega
      · rcases Option.map_eq_some'.mp h with ⟨⟨t2, r⟩, hk, hfn⟩
        rw [← hfn]
        refine ⟨rfl, rfl, rfl,
          vacuumEvictLoop_length H v.alternate_ranges v.m v.slots_per_bucket
            _ _ _ _ _ _ hk, by omega, ?_⟩
        intro ht
        exact vacuumEvictLoop_bounded H v.alternate_ranges v.m
          v.slots_per_bucket _ _ _ _ _ _ ht hk

theorem vacuumDelete_state (H : Nat → Nat) (v : VacuumFilter) (item : Nat)
    (p : VacuumFilter × Bool) (h : vacuumDelete H v item = some p) :
    p.1.slots_per_bucket = v.slots_per_bucket ∧ p.1.m = v.m ∧
    p.1.alternate_ranges = v.alternate_ranges ∧
    p.1.table.length = v.table.length ∧ 0 < v.m ∧
    (TableBounded v.slots_per_bucket v.table →
      TableBounded v.slots_per_bucket p.1.table) := by
  unfold vacuumDelete at h
  split at h
  · exact absurd h (by simp)
  next hm =>
    simp only [] at h
    split at h
    next hf1 =>
      injection h with h2
      rw [← h2]
      refine ⟨rfl, rfl, rfl, by simp, by omega, ?_⟩
      intro ht
      apply tableBounded_set ht
      calc ((bucketAt v.table (vacuumMap (H item) v.m)).erase (H item)).length
          ≤ (bucketAt v.table (vacuumMap (H item) v.m)).length :=
            List.length_erase_le _ _
        _ ≤ v.slots_per_bucket := tableBounded_bucketAt ht _
    · split at h
      next hf2 =>
        injection h with h2
        rw [← h2]
        refine ⟨rfl, rfl, rfl, by simp, by omega, ?_⟩
        intro ht
        apply tableBounded_set ht
        calc ((bucketAt v.table (vacuumAlternate H v.alternate_ranges v.m
              (vacuumMap (H item) v.m) (H item))).erase (H item)).length
            ≤ (bucketAt v.table (vacuumAlternate H v.alternate_ranges v.m
              (vacuumMap (H item) v.m) (H item))).length :=
              List.length_erase_le _ _
          _ ≤ v.slots_per_bucket := tableBounded_bucketAt ht _
      · injection h with h2
        rw [← h2]
        exact ⟨rfl, rfl, rfl, rfl, by omega, fun ht => ht⟩

theorem cuckooStep_state (H : Nat → Nat) (c c2 : CuckooFilter)
    (op : CuckooOp) (h : cuckooStep H c op = some c2) :
    c2.size = c.size ∧ c2.bucket_size = c.bucket_size ∧
    c2.table.length = c.table.length ∧
    (TableBounded c.bucket_size c.table →
      TableBounded c.bucket_size c2.table) := by
  cases op with
  | ins item coin js =>
    unfold cuckooStep at h
    rcases Option.map_eq_some'.mp h with ⟨p, hp, hfn⟩
    obtain ⟨h1, h2, _, h4, h5⟩ := cuckooInsert_state H c item coin js p hp
    rw [← hfn]
    exact ⟨h1, h2, h4, h5⟩
  | del item =>
    unfold cuckooStep at h
    rcases Option.map_eq_some'.mp h with ⟨p, hp, hfn⟩
    obtain ⟨h1, h2, _, h4, h5⟩ := cuckooDelete_state H c item p hp
    rw [← hfn]
    exact ⟨h1, h2, h4, h5⟩

theorem cuckooRun_state (H : Nat → Nat) :
    ∀ (ops : List CuckooOp) (c c2 : CuckooFilter),
      cuckooRun H c ops = some c2 → TableBounded c.bucket_size c.table →
      c2.size = c.size ∧ c2.bucket_size = c.bucket_size ∧
      c2.table.length = c.table.length ∧
      TableBounded c.bucket_size c2.table := by
  intro ops
  induction ops with
  | nil =>
    intro c c2 h ht
    injection h with h2
    rw [← h2]
    exact ⟨rfl, rfl, rfl, ht⟩
  | cons op rest ih =>
    intro c c2 h ht
    unfold cuckooRun at h
    split at h
    · exact absurd h (by simp)
    next c1 hstep =>
      obtain ⟨hs1, hs2, hs3, hs4⟩ := cuckooStep_state H c c1 op hstep
      obtain ⟨hr1, hr2, hr3, hr4⟩ := ih c1 c2 h (by rw [hs2]; exact hs4 ht)
      rw [hs2] at hr2 hr4
      exact ⟨by rw [hr1, hs1], hr2, by rw [hr3, hs3], hr4⟩

theorem vacuumStep_state (H : Nat → Nat) (v v2 : VacuumFilter)
    (op : VacuumOp) (h : vacuumStep H v op = some v2) :
    v2.slots_per_bucket = v.slots_per_bucket ∧ v2.m = v.m ∧
    v2.alternate_ranges = v.alternate_ranges ∧
    v2.table.length = v.table.length ∧ 0 < v.m ∧
    (TableBounded v.slots_per_bucket v.table →
      TableBounded v.slots_per_bucket v2.table) := by
  cases op with
  | ins item coin picks =>
    unfold vacuumStep at h
    rcases Option.map_eq_some'.mp h with ⟨p, hp, hfn⟩
    obtain ⟨h1, h2, h3, h4, h5, h6⟩ := vacuumInsert_state H v item coin picks p hp
    rw [← hfn]
    exact ⟨h1, h2, h3, h4, h5, h6⟩
  | del item =>
    unfold vacuumStep at h
    rcases Option.map_eq_some'.mp h with ⟨p, hp, hfn⟩
    obtain ⟨h1, h2, h3, h4, h5, h6⟩ := vacuumDelete_state H v item p hp
    rw [← hfn]
    exact ⟨h1, h2, h3, h4, h5, h6⟩

theorem vacuumRun_state (H : Nat → Nat) :
    ∀ (ops : List VacuumOp) (v v2 : VacuumFilter),
      vacuumRun H v ops = some v2 →
      TableBounded v.slots_per_bucket v.table →
      v2.slots_per_bucket = v.slots_per_bucket ∧ v2.m = v.m ∧
      v2.alternate_ranges = v.alternate_ranges ∧
      v2.table.length = v.table.length ∧
      TableBounded v.slots_per_bucket v2.table := by
  intro ops
  induction ops with
  | nil =>
    intro v v2 h ht
    injection h with h2
    rw [← h2]
    exact ⟨rfl, rfl, rfl, rfl, ht⟩
  | cons op rest ih =>
    intro v v2 h ht
    unfold vacuumRun at h
    split at h
    · exact absurd h (by simp)
    next v1 hstep =>
      obtain ⟨hs1, hs2, hs3, hs4, _, hs6⟩ := vacuumStep_state H v v1 op hstep
      obtain ⟨hr1, hr2, hr3, hr4, hr5⟩ := ih v1 v2 h (by rw [hs1]; exact hs6 ht)
      rw [hs1] at hr1 hr5
      exact ⟨hr1, by rw [hr2, hs2], by rw [hr3, hs3], by rw [hr4, hs4], hr5⟩

/-- C4: starting from a fresh filter, no sequence of insert/delete calls
ever leaves a bucket with more than `bucket_size` (Cuckoo) respectively
`slots_per_bucket = 4` (Vacuum) fingerprints; moreover each relocation loop
preserves the bound at every intermediate step (each intermediate table is
an input of a recursive call of the loop, covered by the loop conjuncts
below). -/
theorem C4_capacity_bound :
    (∀ (H : Nat → Nat) (size bs mk : Nat) (ops : List CuckooOp)
      (c2 : CuckooFilter),
      cuckooRun H (mkCuckooFilter size bs mk) ops = some c2 →
      ∀ b ∈ c2.table, b.length ≤ bs) ∧
    (∀ (H : Nat → Nat) (size cap fuel : Nat) (js : List Nat) (f i : Nat)
      (t : List (List Nat)) (p : List (List Nat) × Bool),
      TableBounded cap t →
      cuckooKickLoop H size cap fuel js f i t = some p →
      ∀ b ∈ p.1, b.length ≤ cap) ∧
    (∀ (H : Nat → Nat) (test : Nat → Bool) (fuel n : Nat) (lf : ℚ)
      (ops : List VacuumOp) (v2 : VacuumFilter),
      vacuumRun H (mkVacuumFilter test fuel n lf) ops = some v2 →
      ∀ b ∈ v2.table, b.length ≤ 4) ∧
    (∀ (H : Nat → Nat) (ranges : List Nat) (m slots efuel : Nat)
      (picks : List Nat) (cf cb : Nat) (t : List (List Nat))
      (p : List (List Nat) × Bool),
      TableBounded slots t →
      vacuumEvictLoop H ranges m slots efuel picks cf cb t = some p →
      ∀ b ∈ p.1, b.length ≤ slots) := by
  refine ⟨?_, ?_, ?_, ?_⟩
  · intro H size bs mk ops c2 h
    have hfresh : TableBounded (mkCuckooFilter size bs mk).bucket_size
        (mkCuckooFilter size bs mk).table := tableBounded_replicate _ _
    obtain ⟨_, _, _, hb⟩ := cuckooRun_state H ops _ c2 h hfresh
    exact hb
  · intro H size cap fuel js f i t p ht h
    exact cuckooKickLoop_bounded H size cap fuel js f i t p ht h
  · intro H test fuel n lf ops v2 h
    have hfresh : TableBounded (mkVacuumFilter test fuel n lf).slots_per_bucket
        (mkVacuumFilter test fuel n lf).table := tableBounded_replicate _ _
    obtain ⟨_, _, _, _, hb⟩ := vacuumRun_state H ops _ v2 h hfresh
    exact hb
  · intro H ranges m slots efuel picks cf cb t p ht h
    exact vacuumEvictLoop_bounded H ranges m slots efuel picks cf cb t p ht h

/-- C4 witness: the bound evaluated on a concrete Cuckoo run, a concrete
kick-loop call, a fresh Vacuum filter and a concrete eviction-loop call. -/
theorem C4_capacity_bound_witness :
    (∀ b ∈ (⟨2, 2, 1, [[], [5, 9]]⟩ : CuckooFilter).table, b.length ≤ 2) ∧
    (∀ b ∈ ([[2], [7]] : List (List Nat)), b.length ≤ 1) ∧
    (∀ b ∈ (mkVacuumFilter sampleTest 10 40 ((19 : ℚ) / 20)).table,
      b.length ≤ 4) ∧
    (∀ b ∈ ([[9, 6, 7, 8], [5]] : List (List Nat)), b.length ≤ 4) := by
  refine ⟨?_, ?_, ?_, ?_⟩
  · exact C4_capacity_bound.1 (fun x => x) 2 2 1
      [CuckooOp.ins 5 true [], CuckooOp.ins 9 true []]
      ⟨2, 2, 1, [[], [5, 9]]⟩ (by decide)
  · exact C4_capacity_bound.2.1 (fun _ => 0) 2 1 1 [0] 2 0 [[1], [7]]
      ([[2], [7]], false) (by decide) (by decide)
  · exact C4_capacity_bound.2.2.1 (fun x => x) sampleTest 10 40
      ((19 : ℚ) / 20) [] (mkVacuumFilter sampleTest 10 40 ((19 : ℚ) / 20))
      rfl
  · exact C4_capacity_bound.2.2.2 (fun _ => 0) [1, 1, 1, 2] 2 4 1 [0] 9 0
      [[5, 6, 7, 8], [5]] ([[9, 6, 7, 8], [5]], false) (by decide) (by decide)

/-! ### Bloom monotonicity: set bits stay set -/

theorem list_getD_eq_getElem?_getD {α : Type _} (l : List α) (n : Nat)
    (d : α) : l.getD n d = (l[n]?).getD d := by
  simp [List.getD, List.get?_eq_getElem?]

theorem getD_set_true {arr : List Bool} {q : Nat} (h : q < arr.length) :
    (arr.set q true).getD q false = true := by
  rw [list_getD_eq_getElem?_getD, List.getElem?_set_self (by simpa using h)]
  rfl

theorem getD_true_mono {arr : List Bool} {p q : Nat}
    (h : arr.getD p false = true) : (arr.set q true).getD p false = true := by
  by_cases hpq : q = p
  · subst hpq
    rcases Nat.lt_or_ge q arr.length with hlt | hge
    · exact getD_set_true hlt
    · rw [list_set_oob _ _ _ hge]
      exact h
  · rw [list_getD_eq_getElem?_getD, List.getElem?_set_ne hpq,
      ← list_getD_eq_getElem?_getD]
    exact h

theorem bloomSetBits_length (H2 : Nat → Nat → Nat) (size item : Nat) :
    ∀ (r i : Nat) (arr arr2 : List Bool),
      bloomSetBits H2 size item i r arr = some arr2 →
      arr2.length = arr.length := by
  intro r
  induction r with
  | zero =>
    intro i arr arr2 h
    injection h with h2
    rw [← h2]
  | succ n ih =>
    intro i arr arr2 h
    unfold bloomSetBits at h
    split at h
    · exact absurd h (by simp)
    · rw [ih _ _ _ h]
      simp

theorem bloomSetBits_mono (H2 : Nat → Nat → Nat) (size item : Nat) :
    ∀ (r i : Nat) (arr arr2 : List Bool) (p : Nat),
      bloomSetBits H2 size item i r arr = some arr2 →
      arr.getD p false = true → arr2.getD p false = true := by
  intro r
  induction r with
  | zero =>
    intro i arr arr2 p h hp
    injection h with h2
    rw [← h2]
    exact hp
  | succ n ih =>
    intro i arr arr2 p h hp
    unfold bloomSetBits at h
    split at h
    · exact absurd h (by simp)
    · exact ih _ _ _ _ h (getD_true_mono hp)

theorem bloomSetBits_sets (H2 : Nat → Nat → Nat) (size item : Nat) :
    ∀ (r i : Nat) (arr arr2 : List Bool), size ≤ arr.length →
      bloomSetBits H2 size item i r arr = some arr2 →
      ∀ jj, i ≤ jj → jj < i + r →
        arr2.getD (H2 jj item % size) false = true := by
  intro r
  induction r with
  | zero =>
    intro i arr arr2 _ _ jj h1 h2
    omega
  | succ n ih =>
    intro i arr arr2 hlen h jj h1 h2
    unfold bloomSetBits at h
    split at h
    · exact absurd h (by simp)
    next hsz =>
      rcases Nat.eq_or_lt_of_le h1 with rfl | hlt
      · apply bloomSetBits_mono H2 size item _ _ _ _ _ h
        refine getD_set_true ?_
        have hm : H2 i item % size < size := Nat.mod_lt _ (by omega)
        omega
      · exact ih (i + 1) _ _ (by simpa using hlen) h jj hlt (by omega)

theorem bloomProbes_true (H2 : Nat → Nat → Nat) (size item : Nat) :
    ∀ (r i : Nat) (arr : List Bool), (0 < size ∨ r = 0) →
      (∀ jj, i ≤ jj → jj < i + r →
        arr.getD (H2 jj item % size) false = true) →
      bloomProbes H2 size item i r arr = some true := by
  intro r
  induction r with
  | zero => intro i arr _ _; rfl
  | succ n ih =>
    intro i arr hsz hbits
    unfold bloomProbes
    rw [if_neg (by omega)]
    rw [hbits i (Nat.le_refl i) (by omega)]
    simp only [if_true]
    exact ih _ _ (by omega) (fun jj h1 h2 => hbits jj (by omega) (by omega))

theorem bloomInsert_state (H2 : Nat → Nat → Nat) (b : BloomFilter)
    (item : Nat) (p : BloomFilter × Option Bool)
    (h : bloomInsert H2 b item = some p) :
    p.1.size = b.size ∧ p.1.num_hashes = b.num_hashes ∧
    p.1.bit_array.length = b.bit_array.length ∧
    bloomSetBits H2 b.size item 0 b.num_hashes b.bit_array =
      some p.1.bit_array := by
  unfold bloomInsert at h
  cases hs : bloomSetBits H2 b.size item 0 b.num_hashes b.bit_array with
  | none =>
    rw [hs] at h
    exact absurd h (by simp)
  | some arr =>
    rw [hs] at h
    have h2 : some ((⟨b.size, b.num_hashes, arr⟩ : BloomFilter),
        (none : Option Bool)) = some p := h
    injection h2 with h3
    subst h3
    refine ⟨rfl, rfl, ?_, ?_⟩
    · show arr.length = b.bit_array.length
      exact bloomSetBits_length H2 b.size item _ _ _ _ hs
    · rfl

theorem bloomRun_state (H2 : Nat → Nat → Nat) :
    ∀ (items : List Nat) (b b2 : BloomFilter),
      bloomRun H2 b items = some b2 →
      b2.size = b.size ∧ b2.num_hashes = b.num_hashes ∧
      b2.bit_array.length = b.bit_array.length ∧
      (∀ p, b.bit_array.getD p false = true →
        b2.bit_array.getD p false = true) := by
  intro items
  induction items with
  | nil =>
    intro b b2 h
    injection h with h2
    rw [← h2]
    exact ⟨rfl, rfl, rfl, fun _ hp => hp⟩
  | cons x xs ih =>
    intro b b2 h
    unfold bloomRun at h
    split at h
    · exact absurd h (by simp)
    next b1 ret hins =>
      obtain ⟨hs1, hs2, hs3, hs4⟩ := bloomInsert_state H2 b x (b1, ret) hins
      obtain ⟨hr1, hr2, hr3, hr4⟩ := ih b1 b2 h
      refine ⟨by rw [hr1, hs1], by rw [hr2, hs2], by rw [hr3, hs3], ?_⟩
      intro p hp
      exact hr4 p (bloomSetBits_mono H2 b.size x _ _ _ _ p hs4 hp)

/-! ### Cuckoo: a successfully inserted fingerprint stays in its candidate
bucket pair -/

/-- The fingerprint `fp` is stored in candidate bucket `i1` or in candidate
bucket `i2` (the second with its index in range, as required for the final
lookup to succeed). -/
def cuckooHasFp (i1 i2 fp : Nat) (t : List (List Nat)) : Prop :=
  fp ∈ bucketAt t i1 ∨ (i2 < t.length ∧ fp ∈ bucketAt t i2)

theorem cuckooHasFp_set_append {i1 i2 fp : Nat} {t : List (List Nat)}
    {w : Nat} {l : List Nat} (h : cuckooHasFp i1 i2 fp t) :
    cuckooHasFp i1 i2 fp (t.set w (bucketAt t w ++ l)) := by
  rcases h with h1 | ⟨hb, h2⟩
  · left
    by_cases hw : w = i1
    · subst hw
      exact bucketAt_set_append_mem h1
    · rw [bucketAt_set_ne _ _ _ _ hw]
      exact h1
  · right
    refine ⟨by simpa using hb, ?_⟩
    by_cases hw : w = i2
    · subst hw
      exact bucketAt_set_append_mem h2
    · rw [bucketAt_set_ne _ _ _ _ hw]
      exact h2

theorem cuckooHasFp_set_erase {i1 i2 fp : Nat} {t : List (List Nat)}
    {w val : Nat} (hval : fp ≠ val) (h : cuckooHasFp i1 i2 fp t) :
    cuckooHasFp i1 i2 fp (t.set w ((bucketAt t w).erase val)) := by
  rcases h with h1 | ⟨hb, h2⟩
  · left
    by_cases hw : w = i1
    · subst hw
      rcases Nat.lt_or_ge w t.length with hlt | hge
      · rw [bucketAt_set_self _ _ _ hlt]
        exact (List.mem_erase_of_ne hval).mpr h1
      · rw [list_set_oob _ _ _ hge]
        exact h1
    · rw [bucketAt_set_ne _ _ _ _ hw]
      exact h1
  · right
    refine ⟨by simpa using hb, ?_⟩
    by_cases hw : w = i2
    · subst hw
      rcases Nat.lt_or_ge w t.length with hlt | hge
      · rw [bucketAt_set_self _ _ _ hlt]
        exact (List.mem_erase_of_ne hval).mpr h2
      · rw [list_set_oob _ _ _ hge]
        exact h2
    · rw [bucketAt_set_ne _ _ _ _ hw]
      exact h2

theorem cuckooHasFp_swap {i1 i2 fp : Nat} {t : List (List Nat)}
    {i j f : Nat} {bkt : List Nat} (hacc : t[i]? = some bkt)
    (hQ : cuckooHasFp i1 i2 fp t) :
    cuckooHasFp i1 i2 fp (t.set i (bkt.set j f)) ∨
      (bkt.getD j 0 = fp ∧ (i = i1 ∨ i = i2)) := by
  have hit : i < t.length := by
    by_contra hc
    rw [List.getElem?_eq_none (by omega)] at hacc
    exact absurd hacc (by simp)
  rcases hQ with h1 | ⟨hb, h2⟩
  · by_cases hiw : i = i1
    · subst hiw
      by_cases hmem : fp ∈ bkt.set j f
      · exact Or.inl (Or.inl (by rw [bucketAt_set_self _ _ _ hit]; exact hmem))
      · have hfpbkt : fp ∈ bkt := by
          rw [← bucketAt_of_getElem? hacc]
          exact h1
        exact Or.inr ⟨list_getD_of_not_mem_set hfpbkt hmem, Or.inl rfl⟩
    · exact Or.inl (Or.inl (by rw [bucketAt_set_ne _ _ _ _ hiw]; exact h1))
  · by_cases hiw : i = i2
    · subst hiw
      by_cases hmem : fp ∈ bkt.set j f
      · refine Or.inl (Or.inr ⟨by simpa using hb, ?_⟩)
        rw [bucketAt_set_self _ _ _ hit]
        exact hmem
      · have hfpbkt : fp ∈ bkt := by
          rw [← bucketAt_of_getElem? hacc]
          exact h2
        exact Or.inr ⟨list_getD_of_not_mem_set hfpbkt hmem, Or.inr rfl⟩
    · refine Or.inl (Or.inr ⟨by simpa using hb, ?_⟩)
      rw [bucketAt_set_ne _ _ _ _ hiw]
      exact h2

theorem cuckooHasFp_of_getElem?_append {i1 i2 fp : Nat}
    {t : List (List Nat)} {w : Nat} {bw : List Nat}
    (hacc : t[w]? = some bw) (hw : w = i1 ∨ w = i2)
    {l : List Nat} (hmem : fp ∈ bw ++ l) :
    cuckooHasFp i1 i2 fp (t.set w (bw ++ l)) := by
  have hwt : w < t.length := by
    by_contra hc
    rw [List.getElem?_eq_none (by omega)] at hacc
    exact absurd hacc (by simp)
  rcases hw with rfl | rfl
  · left
    rw [bucketAt_set_self _ _ _ hwt]
    exact hmem
  · right
    refine ⟨by simpa using hwt, ?_⟩
    rw [bucketAt_set_self _ _ _ hwt]
    exact hmem

theorem cuckooKickLoop_hasFp (H : Nat → Nat) (size cap fp i1 i2 : Nat)
    (hd : i2 = i1 ^^^ (H fp % size)) :
    ∀ (fuel : Nat) (js : List Nat) (f i : Nat) (t t2 : List (List Nat)),
      cuckooKickLoop H size cap fuel js f i t = some (t2, true) →
      (cuckooHasFp i1 i2 fp t ∨ (f = fp ∧ (i = i1 ∨ i = i2))) →
      cuckooHasFp i1 i2 fp t2 := by
  intro fuel
  induction fuel with
  | zero =>
    intro js f i t t2 h _
    unfold cuckooKickLoop at h
    injection h with h2
    exact absurd (congrArg Prod.snd h2) (by simp)
  | succ n ih =>
    intro js f i t t2 h hQ
    unfold cuckooKickLoop at h
    split at h
    · exact absurd h (by simp)
    next bkt hacc =>
      split at h
      · exact absurd h (by simp)
      next hne =>
        simp only [] at h
        have hit : i < t.length := by
          by_contra hc
          rw [List.getElem?_eq_none (by omega)] at hacc
          exact absurd hacc (by simp)
        -- the single swap step of the iteration
        have hswap :
            cuckooHasFp i1 i2 fp
              (t.set i (bkt.set (js.headD 0 % bkt.length) f)) ∨
            (bkt.getD (js.headD 0 % bkt.length) 0 = fp ∧ (i = i1 ∨ i = i2)) := by
          rcases hQ with hQ1 | ⟨rfl, hQ2⟩
          · exact cuckooHasFp_swap hacc hQ1
          · left
            have hj : js.headD 0 % bkt.length < bkt.length :=
              Nat.mod_lt _ (by omega)
            have hmem : f ∈ bkt.set (js.headD 0 % bkt.length) f :=
              list_mem_set_self f hj
            rcases hQ2 with rfl | rfl
            · left
              rw [bucketAt_set_self _ _ _ hit]
              exact hmem
            · right
              refine ⟨by simpa using hit, ?_⟩
              rw [bucketAt_set_self _ _ _ hit]
              exact hmem
        split at h
        · exact absurd h (by simp)
        next b2 hacc2 =>
          split at h
          next hroom =>
            injection h with h2
            have ht2 : t2 = (t.set i (bkt.set (js.headD 0 % bkt.length) f)).set
                (i ^^^ H (bkt.getD (js.headD 0 % bkt.length) 0) % size)
                (b2 ++ [bkt.getD (js.headD 0 % bkt.length) 0]) :=
              (congrArg Prod.fst h2).symm
            rw [ht2]
            rcases hswap with hs1 | ⟨hfOut, hii⟩
            · rw [← bucketAt_of_getElem? hacc2]
              exact cuckooHasFp_set_append hs1
            · -- the evicted occupant is the tracked fingerprint itself
              rw [hfOut] at hacc2 ⊢
              apply cuckooHasFp_of_getElem?_append hacc2
              · rcases hii with rfl | rfl
                · exact Or.inr hd.symm
                · exact Or.inl (by rw [hd, Nat.xor_cancel_right])
              · exact List.mem_append_right _ (by simp)
          · -- continue the relocation chain
            apply ih _ _ _ _ _ h
            rcases hswap with hs1 | ⟨hfOut, hii⟩
            · exact Or.inl hs1
            · refine Or.inr ⟨hfOut, ?_⟩
              rw [hfOut]
              rcases hii with rfl | rfl
              · exact Or.inr hd.symm
              · exact Or.inl (by rw [hd, Nat.xor_cancel_right])

theorem cuckooInsert_hasFp (H : Nat → Nat) (c : CuckooFilter) (y : Nat)
    (coin : Bool) (js : List Nat) (c2 : CuckooFilter) (fp i1 i2 : Nat)
    (hd : i2 = i1 ^^^ (H fp % c.size))
    (h : cuckooInsert H c y coin js = some (c2, true))
    (hfp : cuckooHasFp i1 i2 fp c.table) :
    cuckooHasFp i1 i2 fp c2.table := by
  unfold cuckooInsert at h
  split at h
  · exact absurd h (by simp)
  next j1 j2 hidx =>
    simp only [] at h
    split at h
    · exact absurd h (by simp)
    next b1 hacc1 =>
      split at h
      next hroom1 =>
        injection h with h2
        have ht2 : c2.table = c.table.set j1 (b1 ++ [cuckooFingerprint H y]) := by
          rw [← congrArg (fun q => CuckooFilter.table q.1) h2]
        rw [ht2, ← bucketAt_of_getElem? hacc1]
        exact cuckooHasFp_set_append hfp
      · split at h
        · exact absurd h (by simp)
        next b2 hacc2 =>
          split at h
          next hroom2 =>
            injection h with h2
            have ht2 : c2.table = c.table.set j2 (b2 ++ [cuckooFingerprint H y]) := by
              rw [← congrArg (fun q => CuckooFilter.table q.1) h2]
            rw [ht2, ← bucketAt_of_getElem? hacc2]
            exact cuckooHasFp_set_append hfp
          · rcases Option.map_eq_some'.mp h with ⟨⟨t2, r⟩, hk, hfn⟩
            have hr : r = true := by
              have := congrArg Prod.snd hfn
              simpa using this
            have ht : c2.table = t2 := by
              have := congrArg (fun q => CuckooFilter.table q.1) hfn
              simpa using this.symm
            rw [ht]
            exact cuckooKickLoop_hasFp H c.size c.bucket_size fp i1 i2 hd
              _ _ _ _ _ _ (hr ▸ hk) (Or.inl hfp)

theorem cuckooInsert_establish (H : Nat → Nat) (c : CuckooFilter) (x : Nat)
    (coin : Bool) (js : List Nat) (c2 : CuckooFilter) (i1 i2 : Nat)
    (hidx : cuckooBucketIndexes H c.size x = some (i1, i2))
    (h : cuckooInsert H c x coin js = some (c2, true)) :
    cuckooHasFp i1 i2 (cuckooFingerprint H x) c2.table := by
  have hd : i2 = i1 ^^^ (H (cuckooFingerprint H x) % c.size) := by
    unfold cuckooBucketIndexes at hidx
    split at hidx
    · exact absurd hidx (by simp)
    · injection hidx with h2
      have := congrArg Prod.snd h2
      have h1 := congrArg Prod.fst h2
      simp only [] at this h1
      rw [← this, ← h1]
  unfold cuckooInsert at h
  rw [hidx] at h
  simp only [] at h
  split at h
  · exact absurd h (by simp)
  next b1 hacc1 =>
    split at h
    next hroom1 =>
      injection h with h2
      have ht2 : c2.table = c.table.set i1 (b1 ++ [cuckooFingerprint H x]) := by
        rw [← congrArg (fun q => CuckooFilter.table q.1) h2]
      rw [ht2]
      exact cuckooHasFp_of_getElem?_append hacc1 (Or.inl rfl)
        (List.mem_append_right _ (by simp))
    · split at h
      · exact absurd h (by simp)
      next b2 hacc2 =>
        split at h
        next hroom2 =>
          injection h with h2
          have ht2 : c2.table = c.table.set i2 (b2 ++ [cuckooFingerprint H x]) := by
            rw [← congrArg (fun q => CuckooFilter.table q.1) h2]
          rw [ht2]
          exact cuckooHasFp_of_getElem?_append hacc2 (Or.inr rfl)
            (List.mem_append_right _ (by simp))
        · rcases Option.map_eq_some'.mp h with ⟨⟨t2, r⟩, hk, hfn⟩
          have hr : r = true := by
            have := congrArg Prod.snd hfn
            simpa using this
          have ht : c2.table = t2 := by
            have := congrArg (fun q => CuckooFilter.table q.1) hfn
            simpa using this.symm
          rw [ht]
          apply cuckooKickLoop_hasFp H c.size c.bucket_size
            (cuckooFingerprint H x) i1 i2 hd _ _ _ _ _ _ (hr ▸ hk)
          refine Or.inr ⟨rfl, ?_⟩
          cases coin with
          | true => exact Or.inl (by rw [if_pos rfl])
          | false => exact Or.inr (by rw [if_neg (by simp)])

theorem cuckooDelete_hasFp (H : Nat → Nat) (c : CuckooFilter) (y : Nat)
    (c2 : CuckooFilter) (r : Bool) (fp i1 i2 : Nat)
    (hne : cuckooFingerprint H y ≠ fp)
    (h : cuckooDelete H c y = some (c2, r))
    (hfp : cuckooHasFp i1 i2 fp c.table) :
    cuckooHasFp i1 i2 fp c2.table := by
  unfold cuckooDelete at h
  split at h
  · exact absurd h (by simp)
  next j1 j2 hidx =>
    simp only [] at h
    split at h
    · exact absurd h (by simp)
    next b1 hacc1 =>
      split at h
      next hf1 =>
        injection h with h2
        have ht2 : c2.table = c.table.set j1 (b1.erase (cuckooFingerprint H y)) := by
          rw [← congrArg (fun q => CuckooFilter.table q.1) h2]
        rw [ht2, ← bucketAt_of_getElem? hacc1]
        exact cuckooHasFp_set_erase (fun hh => hne hh.symm) hfp
      · split at h
        · exact absurd h (by simp)
        next b2 hacc2 =>
          split at h
          next hf2 =>
            injection h with h2
            have ht2 : c2.table = c.table.set j2 (b2.erase (cuckooFingerprint H y)) := by
              rw [← congrArg (fun q => CuckooFilter.table q.1) h2]
            rw [ht2, ← bucketAt_of_getElem? hacc2]
            exact cuckooHasFp_set_erase (fun hh => hne hh.symm) hfp
          · injection h with h2
            have ht2 : c2.table = c.table := by
              rw [← congrArg (fun q => CuckooFilter.table q.1) h2]
            rw [ht2]
            exact hfp

theorem cuckooRunStrict_hasFp (H : Nat → Nat) (size0 fp i1 i2 : Nat)
    (hd : i2 = i1 ^^^ (H fp % size0)) :
    ∀ (ops : List CuckooOp) (c c2 : CuckooFilter), c.size = size0 →
      cuckooRunStrict H fp c ops = some c2 →
      cuckooHasFp i1 i2 fp c.table →
      c2.size = size0 ∧ c2.table.length = c.table.length ∧
      cuckooHasFp i1 i2 fp c2.table := by
  intro ops
  induction ops with
  | nil =>
    intro c c2 hsz h hfp
    injection h with h2
    rw [← h2]
    exact ⟨hsz, rfl, hfp⟩
  | cons op rest ih =>
    intro c c2 hsz h hfp
    cases op with
    | ins item coin js =>
      unfold cuckooRunStrict at h
      split at h
      next c1 hstep =>
        obtain ⟨hs1, _, _, hs4, _⟩ :=
          cuckooInsert_state H c item coin js (c1, true) hstep
        obtain ⟨hr1, hr2, hr3⟩ := ih c1 c2 (by rw [hs1, hsz]) h
          (cuckooInsert_hasFp H c item coin js c1 fp i1 i2
            (by rw [hsz]; exact hd) hstep hfp)
        exact ⟨hr1, by rw [hr2, hs4], hr3⟩
      next hnot =>
        exact absurd h (by simp)
    | del item =>
      unfold cuckooRunStrict at h
      split at h
      · exact absurd h (by simp)
      next hne =>
        split at h
        next c1 r hstep =>
          obtain ⟨hs1, _, _, hs4, _⟩ := cuckooDelete_state H c item (c1, r) hstep
          obtain ⟨hr1, hr2, hr3⟩ := ih c1 c2 (by rw [hs1, hsz]) h
            (cuckooDelete_hasFp H c item c1 r fp i1 i2 hne hstep hfp)
          exact ⟨hr1, by rw [hr2, hs4], hr3⟩
        · exact absurd h (by simp)

theorem cuckooContains_of_hasFp (H : Nat → Nat) (c : CuckooFilter)
    (item i1 i2 : Nat)
    (hidx : cuckooBucketIndexes H c.size item = some (i1, i2))
    (hlen : c.table.length = c.size)
    (hfp : cuckooHasFp i1 i2 (cuckooFingerprint H item) c.table) :
    cuckooContains H c item = some true := by
  have hsz : c.size ≠ 0 := by
    intro hz
    unfold cuckooBucketIndexes at hidx
    rw [if_pos hz] at hidx
    exact absurd hidx (by simp)
  have hi1 : i1 < c.table.length := by
    unfold cuckooBucketIndexes at hidx
    rw [if_neg hsz] at hidx
    injection hidx with h2
    have h1 := congrArg Prod.fst h2
    simp only [] at h1
    rw [← h1, hlen]
    exact Nat.mod_lt _ (by omega)
  unfold cuckooContains
  rw [hidx]
  simp only []
  rw [bucketAt_getElem? hi1]
  simp only []
  by_cases hf1 : cuckooFingerprint H item ∈ bucketAt c.table i1
  · rw [if_pos hf1]
  · rw [if_neg hf1]
    rcases hfp with hL | ⟨hb2, hR⟩
    · exact absurd hL hf1
    · rw [bucketAt_getElem? hb2]
      simp [hR]

/-! ### Vacuum: a successfully inserted fingerprint stays in its candidate
bucket pair -/

/-- The fingerprint `fp` is stored in candidate bucket `b1` or `b2` (both
always reduced `% m`, so no range information is needed). -/
def vacuumHasFp (b1 b2 fp : Nat) (t : List (List Nat)) : Prop :=
  fp ∈ bucketAt t b1 ∨ fp ∈ bucketAt t b2

theorem vacuumHasFp_set_append {b1 b2 fp : Nat} {t : List (List Nat)}
    {w : Nat} {l : List Nat} (h : vacuumHasFp b1 b2 fp t) :
    vacuumHasFp b1 b2 fp (t.set w (bucketAt t w ++ l)) := by
  rcases h with h1 | h2
  · left
    by_cases hw : w = b1
    · subst hw; exact bucketAt_set_append_mem h1
    · rw [bucketAt_set_ne _ _ _ _ hw]; exact h1
  · right
    by_cases hw : w = b2
    · subst hw; exact bucketAt_set_append_mem h2
    · rw [bucketAt_set_ne _ _ _ _ hw]; exact h2

theorem vacuumHasFp_set_erase {b1 b2 fp : Nat} {t : List (List Nat)}
    {w val : Nat} (hval : fp ≠ val) (h : vacuumHasFp b1 b2 fp t) :
    vacuumHasFp b1 b2 fp (t.set w ((bucketAt t w).erase val)) := by
  rcases h with h1 | h2
  · left
    by_cases hw : w = b1
    · subst hw
      rcases Nat.lt_or_ge w t.length with hlt | hge
      · rw [bucketAt_set_self _ _ _ hlt]
        exact (List.mem_erase_of_ne hval).mpr h1
      · rw [list_set_oob _ _ _ hge]; exact h1
    · rw [bucketAt_set_ne _ _ _ _ hw]; exact h1
  · right
    by_cases hw : w = b2
    · subst hw
      rcases Nat.lt_or_ge w t.length with hlt | hge
      · rw [bucketAt_set_self _ _ _ hlt]
        exact (List.mem_erase_of_ne hval).mpr h2
      · rw [list_set_oob _ _ _ hge]; exact h2
    · rw [bucketAt_set_ne _ _ _ _ hw]; exact h2

theorem vacuumPlace_witness (H : Nat → Nat) (ranges : List Nat) (m : Nat)
    (fp u uAlt : Nat) (haltU : vacuumAlternate H ranges m u fp = uAlt)
    (huAlt : uAlt < m) {t : List (List Nat)} (hlen : t.length = m)
    {cb g cf : Nat} (hfpU : fp ∈ bucketAt t u) :
    fp ∈ bucketAt
        ((t.set (vacuumAlternate H ranges m cb g)
          (bucketAt t (vacuumAlternate H ranges m cb g) ++ [g])).set cb
          ((bucketAt (t.set (vacuumAlternate H ranges m cb g)
            (bucketAt t (vacuumAlternate H ranges m cb g) ++ [g])) cb).erase g
            ++ [cf])) u ∨
      fp ∈ bucketAt
        ((t.set (vacuumAlternate H ranges m cb g)
          (bucketAt t (vacuumAlternate H ranges m cb g) ++ [g])).set cb
          ((bucketAt (t.set (vacuumAlternate H ranges m cb g)
            (bucketAt t (vacuumAlternate H ranges m cb g) ++ [g])) cb).erase g
            ++ [cf])) uAlt := by
  by_cases hwcb : u = cb
  · subst hwcb
    by_cases hgfp : g = fp
    · subst hgfp
      -- the displaced occupant is the tracked fingerprint
      rw [haltU]
      by_cases habcb : uAlt = u
      · -- alternate equals the current bucket itself
        rw [habcb]
        left
        have hu : u < t.length := by
          rcases Nat.lt_or_ge u t.length with hlt | hge
          · exact hlt
          · exact absurd hfpU (by rw [bucketAt_oob t u hge]; simp)
        rw [bucketAt_set_self _ _ _ (by simpa using hu),
          bucketAt_set_self _ _ _ hu,
          List.erase_append_left _ hfpU]
        exact List.mem_append_left _ (List.mem_append_right _ (by simp))
      · right
        rw [bucketAt_set_ne _ _ _ _ (fun hh => habcb hh.symm),
          bucketAt_set_self _ _ _ (by omega)]
        exact List.mem_append_right _ (by simp)
    · -- some other occupant is displaced: the tracked copy survives the
      -- erase of the first copy of g
      left
      have hu : u < t.length := by
        rcases Nat.lt_or_ge u t.length with hlt | hge
        · exact hlt
        · exact absurd hfpU (by rw [bucketAt_oob t u hge]; simp)
      rw [bucketAt_set_self _ _ _ (by simpa using hu)]
      apply List.mem_append_left
      apply (List.mem_erase_of_ne (Ne.symm hgfp)).mpr
      by_cases hab : vacuumAlternate H ranges m u g = u
      · rw [hab, bucketAt_set_self _ _ _ hu]
        exact List.mem_append_left _ hfpU
      · rw [bucketAt_set_ne _ _ _ _ hab]
        exact hfpU
  · -- the current bucket is not the witness bucket
    left
    rw [bucketAt_set_ne _ _ _ _ (fun hh => hwcb hh.symm)]
    by_cases hab : vacuumAlternate H ranges m cb g = u
    · rw [hab]
      exact bucketAt_set_append_mem hfpU
    · rw [bucketAt_set_ne _ _ _ _ hab]
      exact hfpU

theorem vacuumEvictLoop_hasFp (H : Nat → Nat) (ranges : List Nat)
    (m slots : Nat) (fp b1 b2 : Nat)
    (halt1 : vacuumAlternate H ranges m b1 fp = b2)
    (halt2 : vacuumAlternate H ranges m b2 fp = b1)
    (hb1 : b1 < m) (hb2 : b2 < m) :
    ∀ (fuel : Nat) (picks : List Nat) (cf cb : Nat) (t t2 : List (List Nat)),
      t.length = m →
      vacuumEvictLoop H ranges m slots fuel picks cf cb t = some (t2, true) →
      (vacuumHasFp b1 b2 fp t ∨ (cf = fp ∧ (cb = b1 ∨ cb = b2))) →
      vacuumHasFp b1 b2 fp t2 := by
  intro fuel
  induction fuel with
  | zero =>
    intro picks cf cb t t2 _ h _
    unfold vacuumEvictLoop at h
    injection h with h2
    exact absurd (congrArg Prod.snd h2) (by simp)
  | succ k ih =>
    intro picks cf cb t t2 hlen h hQ
    unfold vacuumEvictLoop at h
    split at h
    next g hfind =>
      simp only [] at h
      injection h with h2
      have ht2 := (congrArg Prod.fst h2).symm
      simp only [] at ht2
      rw [ht2]
      rcases hQ with hfp | ⟨rfl, hcb⟩
      · rcases hfp with hw1 | hw2
        · exact vacuumPlace_witness H ranges m fp b1 b2 halt1 hb2 hlen hw1
        · exact Or.symm
            (vacuumPlace_witness H ranges m fp b2 b1 halt2 hb1 hlen hw2)
      · -- the in-hand fingerprint is appended to the current bucket
        have hcblt : cb < t.length := by
          rcases hcb with rfl | rfl <;> omega
        have hmem : cf ∈ (bucketAt (t.set (vacuumAlternate H ranges m cb g)
            (bucketAt t (vacuumAlternate H ranges m cb g) ++ [g])) cb).erase g
            ++ [cf] := List.mem_append_right _ (by simp)
        have hset : bucketAt ((t.set (vacuumAlternate H ranges m cb g)
            (bucketAt t (vacuumAlternate H ranges m cb g) ++ [g])).set cb
            ((bucketAt (t.set (vacuumAlternate H ranges m cb g)
              (bucketAt t (vacuumAlternate H ranges m cb g) ++ [g])) cb).erase g
              ++ [cf])) cb =
            (bucketAt (t.set (vacuumAlternate H ranges m cb g)
              (bucketAt t (vacuumAlternate H ranges m cb g) ++ [g])) cb).erase g
              ++ [cf] :=
          bucketAt_set_self _ _ _ (by simpa using hcblt)
        rcases hcb with rfl | rfl
        · exact Or.inl (by rw [hset]; exact hmem)
        · exact Or.inr (by rw [hset]; exact hmem)
    · simp only [] at h
      split at h
      · exact absurd h (by simp)
      next evicted hei =>
        have hlen1 : (t.set cb ((bucketAt t cb).set
            (picks.headD 0 % slots) cf)).length = m := by simpa using hlen
        apply ih _ _ _ _ _ hlen1 h
        have heilt : picks.headD 0 % slots < (bucketAt t cb).length := by
          by_contra hc
          rw [List.getElem?_eq_none (by omega)] at hei
          exact absurd hei (by simp)
        have hgetD : (bucketAt t cb).getD (picks.headD 0 % slots) 0 = evicted := by
          rw [list_getD_eq_getElem _ _ _ heilt]
          rw [List.getElem?_eq_getElem heilt] at hei
          exact Option.some_inj.mp hei
        rcases hQ with hfp | ⟨rfl, hcb⟩
        · rcases hfp with hw1 | hw2
          · by_cases hwcb : cb = b1
            · subst hwcb
              by_cases hev : evicted = fp
              · subst hev
                exact Or.inr ⟨rfl, Or.inr halt1⟩
              · refine Or.inl (Or.inl ?_)
                rw [bucketAt_set_self _ _ _ (by omega)]
                exact list_mem_set_of_ne_getD hw1 (by rw [hgetD]; exact hev)
            · refine Or.inl (Or.inl ?_)
              rw [bucketAt_set_ne _ _ _ _ hwcb]
              exact hw1
          · by_cases hwcb : cb = b2
            · subst hwcb
              by_cases hev : evicted = fp
              · subst hev
                exact Or.inr ⟨rfl, Or.inl halt2⟩
              · refine Or.inl (Or.inr ?_)
                rw [bucketAt_set_self _ _ _ (by omega)]
                exact list_mem_set_of_ne_getD hw2 (by rw [hgetD]; exact hev)
            · refine Or.inl (Or.inr ?_)
              rw [bucketAt_set_ne _ _ _ _ hwcb]
              exact hw2
        · -- the in-hand fingerprint is written into the current bucket
          have hcblt : cb < t.length := by
            rcases hcb with rfl | rfl <;> omega
          have hmem : cf ∈ (bucketAt t cb).set (picks.headD 0 % slots) cf :=
            list_mem_set_self cf heilt
          rcases hcb with rfl | rfl
          · refine Or.inl (Or.inl ?_)
            rw [bucketAt_set_self _ _ _ hcblt]
            exact hmem
          · refine Or.inl (Or.inr ?_)
            rw [bucketAt_set_self _ _ _ hcblt]
            exact hmem

theorem vacuumInsert_hasFp (H : Nat → Nat) (v : VacuumFilter) (y : Nat)
    (coin : Bool) (picks : List Nat) (v2 : VacuumFilter) (fp b1 b2 : Nat)
    (halt1 : vacuumAlternate H v.alternate_ranges v.m b1 fp = b2)
    (halt2 : vacuumAlternate H v.alternate_ranges v.m b2 fp = b1)
    (hb1 : b1 < v.m) (hb2 : b2 < v.m) (hlen : v.table.length = v.m)
    (h : vacuumInsert H v y coin picks = some (v2, true))
    (hfp : vacuumHasFp b1 b2 fp v.table) :
    vacuumHasFp b1 b2 fp v2.table := by
  unfold vacuumInsert at h
  split at h
  · exact absurd h (by simp)
  next hm =>
    simp only [] at h
    split at h
    next hroom1 =>
      injection h with h2
      have ht2 : v2.table = v.table.set (vacuumMap (H y) v.m)
          (bucketAt v.table (vacuumMap (H y) v.m) ++ [H y]) := by
        rw [← congrArg (fun q => VacuumFilter.table q.1) h2]
      rw [ht2]
      exact vacuumHasFp_set_append hfp
    · split at h
      next hroom2 =>
        injection h with h2
        have ht2 : v2.table = v.table.set (vacuumAlternate H v.alternate_ranges
            v.m (vacuumMap (H y) v.m) (H y))
            (bucketAt v.table (vacuumAlternate H v.alternate_ranges v.m
              (vacuumMap (H y) v.m) (H y)) ++ [H y]) := by
          rw [← congrArg (fun q => VacuumFilter.table q.1) h2]
        rw [ht2]
        exact vacuumHasFp_set_append hfp
      · rcases Option.map_eq_some'.mp h with ⟨⟨t2, r⟩, hk, hfn⟩
        have hr : r = true := by
          have := congrArg Prod.snd hfn
          simpa using this
        have ht : v2.table = t2 := by
          have := congrArg (fun q => VacuumFilter.table q.1) hfn
          simpa using this.symm
        rw [ht]
        exact vacuumEvictLoop_hasFp H v.alternate_ranges v.m
          v.slots_per_bucket fp b1 b2 halt1 halt2 hb1 hb2 _ _ _ _ _ _
          hlen (hr ▸ hk) (Or.inl hfp)

theorem vacuumInsert_establish (H : Nat → Nat) (v : VacuumFilter) (x : Nat)
    (coin : Bool) (picks : List Nat) (v2 : VacuumFilter)
    (halt2 : vacuumAlternate H v.alternate_ranges v.m
      (vacuumAlternate H v.alternate_ranges v.m (vacuumMap (H x) v.m) (H x))
      (H x) = vacuumMap (H x) v.m)
    (hlen : v.table.length = v.m)
    (h : vacuumInsert H v x coin picks = some (v2, true)) :
    vacuumHasFp (vacuumMap (H x) v.m)
      (vacuumAlternate H v.alternate_ranges v.m (vacuumMap (H x) v.m) (H x))
      (H x) v2.table := by
  have hm : v.m ≠ 0 := by
    intro hz
    unfold vacuumInsert at h
    rw [if_pos hz] at h
    exact absurd h (by simp)
  have hb1 : vacuumMap (H x) v.m < v.m := Nat.mod_lt _ (by omega)
  have hb2 : vacuumAlternate H v.alternate_ranges v.m (vacuumMap (H x) v.m)
      (H x) < v.m := Nat.mod_lt _ (by omega)
  unfold vacuumInsert at h
  rw [if_neg hm] at h
  simp only [] at h
  split at h
  next hroom1 =>
    injection h with h2
    have ht2 : v2.table = v.table.set (vacuumMap (H x) v.m)
        (bucketAt v.table (vacuumMap (H x) v.m) ++ [H x]) := by
      rw [← congrArg (fun q => VacuumFilter.table q.1) h2]
    rw [ht2]
    left
    rw [bucketAt_set_self _ _ _ (by omega)]
    exact List.mem_append_right _ (by simp)
  · split at h
    next hroom2 =>
      injection h with h2
      have ht2 : v2.table = v.table.set (vacuumAlternate H v.alternate_ranges
          v.m (vacuumMap (H x) v.m) (H x))
          (bucketAt v.table (vacuumAlternate H v.alternate_ranges v.m
            (vacuumMap (H x) v.m) (H x)) ++ [H x]) := by
        rw [← congrArg (fun q => VacuumFilter.table q.1) h2]
      rw [ht2]
      right
      rw [bucketAt_set_self _ _ _ (by omega)]
      exact List.mem_append_right _ (by simp)
    · rcases Option.map_eq_some'.mp h with ⟨⟨t2, r⟩, hk, hfn⟩
      have hr : r = true := by
        have := congrArg Prod.snd hfn
        simpa using this
      have ht : v2.table = t2 := by
        have := congrArg (fun q => VacuumFilter.table q.1) hfn
        simpa using this.symm
      rw [ht]
      apply vacuumEvictLoop_hasFp H v.alternate_ranges v.m v.slots_per_bucket
        (H x) (vacuumMap (H x) v.m)
        (vacuumAlternate H v.alternate_ranges v.m (vacuumMap (H x) v.m) (H x))
        rfl halt2 hb1 hb2 _ _ _ _ _ _ hlen (hr ▸ hk)
      refine Or.inr ⟨rfl, ?_⟩
      cases coin with
      | true => exact Or.inl (by rw [if_pos rfl])
      | false => exact Or.inr (by rw [if_neg (by simp)])

theorem vacuumDelete_hasFp (H : Nat → Nat) (v : VacuumFilter) (y : Nat)
    (v2 : VacuumFilter) (r : Bool) (fp b1 b2 : Nat) (hne : H y ≠ fp)
    (h : vacuumDelete H v y = some (v2, r))
    (hfp : vacuumHasFp b1 b2 fp v.table) :
    vacuumHasFp b1 b2 fp v2.table := by
  unfold vacuumDelete at h
  split at h
  · exact absurd h (by simp)
  next hm =>
    simp only [] at h
    split at h
    next hf1 =>
      injection h with h2
      have ht2 : v2.table = v.table.set (vacuumMap (H y) v.m)
          ((bucketAt v.table (vacuumMap (H y) v.m)).erase (H y)) := by
        rw [← congrArg (fun q => VacuumFilter.table q.1) h2]
      rw [ht2]
      exact vacuumHasFp_set_erase (fun hh => hne hh.symm) hfp
    · split at h
      next hf2 =>
        injection h with h2
        have ht2 : v2.table = v.table.set (vacuumAlternate H
            v.alternate_ranges v.m (vacuumMap (H y) v.m) (H y))
            ((bucketAt v.table (vacuumAlternate H v.alternate_ranges v.m
              (vacuumMap (H y) v.m) (H y))).erase (H y)) := by
          rw [← congrArg (fun q => VacuumFilter.table q.1) h2]
        rw [ht2]
        exact vacuumHasFp_set_erase (fun hh => hne hh.symm) hfp
      · injection h with h2
        have ht2 : v2.table = v.table := by
          rw [← congrArg (fun q => VacuumFilter.table q.1) h2]
        rw [ht2]
        exact hfp

theorem vacuumRunStrict_hasFp (H : Nat → Nat) (ranges0 : List Nat)
    (m0 fp b1 b2 : Nat)
    (halt1 : vacuumAlternate H ranges0 m0 b1 fp = b2)
    (halt2 : vacuumAlternate H ranges0 m0 b2 fp = b1)
    (hb1 : b1 < m0) (hb2 : b2 < m0) :
    ∀ (ops : List VacuumOp) (v v2 : VacuumFilter),
      v.alternate_ranges = ranges0 → v.m = m0 → v.table.length = v.m →
      vacuumRunStrict H fp v ops = some v2 →
      vacuumHasFp b1 b2 fp v.table →
      v2.alternate_ranges = ranges0 ∧ v2.m = m0 ∧
      v2.table.length = v2.m ∧ vacuumHasFp b1 b2 fp v2.table := by
  intro ops
  induction ops with
  | nil =>
    intro v v2 hr hm hlen h hfp
    injection h with h2
    rw [← h2]
    exact ⟨hr, hm, hlen, hfp⟩
  | cons op rest ih =>
    intro v v2 hr hm hlen h hfp
    cases op with
    | ins item coin picks =>
      unfold vacuumRunStrict at h
      split at h
      next v1 hstep =>
        obtain ⟨hs1, hs2, hs3, hs4, _, _⟩ :=
          vacuumInsert_state H v item coin picks (v1, true) hstep
        apply ih v1 v2 (by rw [hs3, hr]) (by rw [hs2, hm])
          (by rw [hs4, hs2, hlen]) h
        exact vacuumInsert_hasFp H v item coin picks v1 fp b1 b2
          (by rw [hr, hm]; exact halt1) (by rw [hr, hm]; exact halt2)
          (by omega) (by omega) hlen hstep hfp
      next hnot =>
        exact absurd h (by simp)
    | del item =>
      unfold vacuumRunStrict at h
      split at h
      · exact absurd h (by simp)
      next hne =>
        split at h
        next v1 r hstep =>
          obtain ⟨hs1, hs2, hs3, hs4, _, _⟩ :=
            vacuumDelete_state H v item (v1, r) hstep
          apply ih v1 v2 (by rw [hs3, hr]) (by rw [hs2, hm])
            (by rw [hs4, hs2, hlen]) h
          exact vacuumDelete_hasFp H v item v1 r fp b1 b2 hne hstep hfp
        · exact absurd h (by simp)

theorem vacuumContains_of_hasFp (H : Nat → Nat) (v : VacuumFilter)
    (item : Nat) (hm : 0 < v.m)
    (hfp : vacuumHasFp (vacuumMap (H item) v.m)
      (vacuumAlternate H v.alternate_ranges v.m (vacuumMap (H item) v.m)
        (H item)) (H item) v.table) :
    vacuumContains H v item = some true := by
  unfold vacuumContains
  rw [if_neg (by omega)]
  simp only []
  rcases hfp with h | h <;> simp [h]

/-- C1 (amended): no false negatives, under the conditions the
counterexample forces.  Bloom: unconditional — after any prior inserts, an
insert of `x` that completes, and any later inserts, `contains x` is true.
Cuckoo: from a fresh filter, if `insert x` returned true, every intervening
insert call returned true and no intervening delete targeted an item with
`x`'s fingerprint, then `contains x` is true.  Vacuum: likewise, on any
state whose table has `m` buckets and whose alternate range for `x`'s
fingerprint class is a power of two dividing `m` (the last conjunct shows
every freshly constructed filter provides the first two side conditions,
and the amended C3 involution shows the divisibility holds for fingerprint
classes 0-2 by construction). -/
theorem C1_no_false_negatives_amended :
    (∀ (H2 : Nat → Nat → Nat) (msize k : Nat) (pre : List Nat) (x : Nat)
      (post : List Nat) (b0 : BloomFilter) (p : BloomFilter × Option Bool)
      (b2 : BloomFilter),
      bloomRun H2 (mkBloomFilter msize k) pre = some b0 →
      bloomInsert H2 b0 x = some p →
      bloomRun H2 p.1 post = some b2 →
      bloomContains H2 b2 x = some true) ∧
    (∀ (H : Nat → Nat) (size bs mk : Nat) (pre : List CuckooOp) (x : Nat)
      (coin : Bool) (js : List Nat) (ops : List CuckooOp)
      (c0 cx c2 : CuckooFilter),
      cuckooRun H (mkCuckooFilter size bs mk) pre = some c0 →
      cuckooInsert H c0 x coin js = some (cx, true) →
      cuckooRunStrict H (cuckooFingerprint H x) cx ops = some c2 →
      cuckooContains H c2 x = some true) ∧
    (∀ (H : Nat → Nat) (v0 : VacuumFilter) (x : Nat) (coin : Bool)
      (picks : List Nat) (ops : List VacuumOp) (vx v2 : VacuumFilter)
      (e : Nat),
      v0.table.length = v0.m →
      v0.alternate_ranges.getD (H x % 4) 0 = 2 ^ e →
      v0.alternate_ranges.getD (H x % 4) 0 ∣ v0.m →
      vacuumInsert H v0 x coin picks = some (vx, true) →
      vacuumRunStrict H (H x) vx ops = some v2 →
      vacuumContains H v2 x = some true) ∧
    (∀ (test : Nat → Bool) (fuel n : Nat) (lf : ℚ),
      (mkVacuumFilter test fuel n lf).table.length =
        (mkVacuumFilter test fuel n lf).m ∧
      ∀ i, i < 4 → ∃ e,
        (mkVacuumFilter test fuel n lf).alternate_ranges.getD i 0 = 2 ^ e) := by
  refine ⟨?_, ?_, ?_, ?_⟩
  · -- Bloom
    intro H2 msize k pre x post b0 p b2 hpre hins hpost
    obtain ⟨hp1, hp2, hp3, hp4⟩ := bloomRun_state H2 pre _ b0 hpre
    obtain ⟨hi1, hi2, hi3, hi4⟩ := bloomInsert_state H2 b0 x p hins
    obtain ⟨ho1, ho2, ho3, ho4⟩ := bloomRun_state H2 post _ b2 hpost
    unfold bloomContains
    rw [ho1, hi1, ho2, hi2]
    by_cases hk : b0.num_hashes = 0
    · rw [hk]
      exact bloomProbes_true H2 b0.size x 0 0 _ (Or.inr rfl) (by omega)
    · have hsz : b0.size ≠ 0 := by
        intro hz
        rcases hn : b0.num_hashes with _ | n
        · exact hk hn
        · rw [hn] at hi4
          unfold bloomSetBits at hi4
          rw [if_pos hz] at hi4
          exact absurd hi4 (by simp)
      apply bloomProbes_true H2 b0.size x b0.num_hashes 0 b2.bit_array
        (Or.inl (by omega))
      intro jj h1 h2
      apply ho4
      apply bloomSetBits_sets H2 b0.size x b0.num_hashes 0 b0.bit_array
        p.1.bit_array _ hi4 jj h1 h2
      rw [hp3]
      simp [mkBloomFilter, hp1]
  · -- Cuckoo
    intro H size bs mk pre x coin js ops c0 cx c2 hpre hins hops
    have hfresh : TableBounded (mkCuckooFilter size bs mk).bucket_size
        (mkCuckooFilter size bs mk).table := tableBounded_replicate _ _
    obtain ⟨hp1, hp2, hp3, _⟩ := cuckooRun_state H pre _ c0 hpre hfresh
    have hsz : c0.size ≠ 0 := by
      intro hz
      unfold cuckooInsert at hins
      unfold cuckooBucketIndexes at hins
      rw [if_pos hz] at hins
      exact absurd hins (by simp)
    have hidx := cuckooBucketIndexes_eq H c0.size x (by omega)
    obtain ⟨hx1, _, _, hx4, _⟩ := cuckooInsert_state H c0 x coin js (cx, true) hins
    have hfpx := cuckooInsert_establish H c0 x coin js cx _ _ hidx hins
    obtain ⟨hr1, hr2, hr3⟩ := cuckooRunStrict_hasFp H c0.size
      (cuckooFingerprint H x) (H x % c0.size)
      ((H x % c0.size) ^^^ (H (cuckooFingerprint H x) % c0.size)) rfl ops cx c2
      (by rw [hx1]) hops hfpx
    apply cuckooContains_of_hasFp H c2 x _ _ (by rw [hr1]; exact hidx) _ hr3
    rw [hr2, hx4, hr1]
    show c0.table.length = c0.size
    rw [hp3, hp1]
    simp [mkCuckooFilter]
  · -- Vacuum
    intro H v0 x coin picks ops vx v2 e hlen hpow hdvd hins hops
    have hm : v0.m ≠ 0 := by
      intro hz
      unfold vacuumInsert at hins
      rw [if_pos hz] at hins
      exact absurd hins (by simp)
    have hb1 : vacuumMap (H x) v0.m < v0.m := Nat.mod_lt _ (by omega)
    have hb2 : vacuumAlternate H v0.alternate_ranges v0.m
        (vacuumMap (H x) v0.m) (H x) < v0.m := Nat.mod_lt _ (by omega)
    have halt2 : vacuumAlternate H v0.alternate_ranges v0.m
        (vacuumAlternate H v0.alternate_ranges v0.m (vacuumMap (H x) v0.m)
          (H x)) (H x) = vacuumMap (H x) v0.m :=
      alternate_involution_of_dvd H v0.alternate_ranges v0.m _ _ e hpow hdvd hb1
    have hfpx := vacuumInsert_establish H v0 x coin picks vx halt2 hlen hins
    obtain ⟨hx1, hx2, hx3, hx4, _, _⟩ :=
      vacuumInsert_state H v0 x coin picks (vx, true) hins
    obtain ⟨hr1, hr2, hr3, hr4⟩ := vacuumRunStrict_hasFp H v0.alternate_ranges
      v0.m (H x) (vacuumMap (H x) v0.m)
      (vacuumAlternate H v0.alternate_ranges v0.m (vacuumMap (H x) v0.m)
        (H x)) rfl halt2 hb1 hb2 ops vx v2 hx3 hx2
      (by rw [hx4, hx2, hlen]) hops hfpx
    apply vacuumContains_of_hasFp H v2 x (by omega)
    rw [hr1, hr2]
    exact hr4
  · -- constructed Vacuum filters satisfy the side conditions
    intro test fuel n lf
    constructor
    · simp [mkVacuumFilter]
    · intro i hi
      exact mkVacuumFilter_ranges_pow test fuel n lf i hi

/-- C1 witness: the amended no-false-negative property evaluated on concrete
traces of all three filters. -/
theorem C1_no_false_negatives_witness :
    bloomContains (fun s i => s + i)
      ⟨4, 1, [true, true, false, false]⟩ 0 = some true ∧
    cuckooContains (fun x => x) ⟨2, 1, 1, [[0], [1]]⟩ 0 = some true ∧
    vacuumContains (fun _ => 0)
      ⟨4, 8, (1 : ℚ), [2, 2, 2, 4], 2, [[0, 0], []]⟩ 0 = some true := by
  refine ⟨?_, ?_, ?_⟩
  · exact C1_no_false_negatives_amended.1 (fun s i => s + i) 4 1 [] 0 [1]
      (mkBloomFilter 4 1) (⟨4, 1, [true, false, false, false]⟩, none)
      ⟨4, 1, [true, true, false, false]⟩ rfl (by decide) (by decide)
  · exact C1_no_false_negatives_amended.2.1 (fun x => x) 2 1 1 [] 0 true []
      [CuckooOp.ins 1 true []] (mkCuckooFilter 2 1 1) ⟨2, 1, 1, [[0], []]⟩
      ⟨2, 1, 1, [[0], [1]]⟩ rfl (by decide) (by decide)
  · exact C1_no_false_negatives_amended.2.2.1 (fun _ => 0)
      ⟨4, 8, (1 : ℚ), [2, 2, 2, 4], 2, [[], []]⟩ 0 true []
      [VacuumOp.ins 1 true []] ⟨4, 8, (1 : ℚ), [2, 2, 2, 4], 2, [[0], []]⟩
      ⟨4, 8, (1 : ℚ), [2, 2, 2, 4], 2, [[0, 0], []]⟩ 1
      (by decide) (by decide) (by decide) (by rfl) (by rfl)
